import Mathlib

/-
Verification of the feed-forward MLP engine in
`Neural Network in C++/neural_network.cpp`.

The C++ data structures and member functions are shallowly embedded as Lean
definitions over `ℝ`-valued lists.  `std::vector<double>` becomes `List ℝ`;
indexed accesses `v[i]` become `List.getD i 0` (the C++ code performs no
bounds checks, so out-of-range reads -- undefined behaviour in C++ -- are
totalized with the default; the read bounds themselves are tracked by
separate definitions where a claim is about bounds).  The random weight and
bias initialization of `Layer::Layer` (draws from `std::mt19937` seeded by
`std::random_device`) is abstracted by explicit functions `w i j k` / `b i j`
supplied to `construct`: every claim under study is about the arithmetic of
the passes, not about the distribution of the draws.
-/

set_option maxRecDepth 4000

namespace NNV

/-- `struct Neuron { double value; vector<double> weights; double bias; }`. -/
structure Neuron where
  value : ℝ
  weights : List ℝ
  bias : ℝ

instance : Inhabited Neuron := ⟨⟨0, [], 0⟩⟩

/-- `class Layer { vector<Neuron> neurons; }`. -/
structure Layer where
  neurons : List Neuron

instance : Inhabited Layer := ⟨⟨[]⟩⟩

/-- `Layer::getOutputs`: the ordered list of current neuron activation values. -/
def Layer.getOutputs (l : Layer) : List ℝ :=
  l.neurons.map (fun n => n.value)

/-- `class NeuralNetwork { vector<Layer> layers; double learningRate; }`. -/
structure NeuralNetwork where
  layers : List Layer
  learningRate : ℝ

/-- Indexed map starting at index `i`; models C++ loops of the form
`for (size_t i = 0; i < v.size(); ++i) v[i] = f(i, v[i]);`. -/
def mapIdxFrom {α β : Type} (f : ℕ → α → β) : ℕ → List α → List β
  | _, [] => []
  | i, a :: t => f i a :: mapIdxFrom f (i + 1) t

/-- `NeuralNetwork::NeuralNetwork(layerSizes, learningRate)`: for
`i = 1 .. layerSizes.size()-1` emplace `Layer(layerSizes[i], layerSizes[i-1])`;
each layer value-initializes its neurons (`value = 0`), then resizes each
neuron's weight vector to the previous size and fills weights and bias with
random draws, abstracted here as `w i j k` and `b i j`. -/
def construct (layerSizes : List ℕ) (w : ℕ → ℕ → ℕ → ℝ) (b : ℕ → ℕ → ℝ)
    (lr : ℝ) : NeuralNetwork :=
  { layers := (List.range' 1 (layerSizes.length - 1)).map (fun i =>
      { neurons := (List.range (layerSizes.getD i 0)).map (fun j =>
          { value := 0
            weights := (List.range (layerSizes.getD (i - 1) 0)).map (fun k => w i j k)
            bias := b i j }) })
    learningRate := lr }

/-- `NeuralNetwork::relu`. -/
noncomputable def relu (x : ℝ) : ℝ :=
  if x > 0 then x else 0

/-- `NeuralNetwork::reluDerivative`. -/
noncomputable def reluDerivative (x : ℝ) : ℝ :=
  if x > 0 then 1 else 0

/-- `*max_element(x.begin(), x.end())` over a `vector<double>`; on the empty
vector the C++ call is undefined, totalized here via `headD 0`. -/
noncomputable def maxElem (x : List ℝ) : ℝ :=
  x.foldl max (x.headD 0)

/-- `NeuralNetwork::softmax`: `result[i] = exp(x[i] - maxElement)`, `expSum`
their running sum, then every entry is divided by `expSum`. -/
noncomputable def softmax (x : List ℝ) : List ℝ :=
  (x.map (fun xi => Real.exp (xi - maxElem x))).map
    (fun e => e / (x.map (fun xi => Real.exp (xi - maxElem x))).sum)

/-- The accumulation `neuron.value += layers[i-1].neurons[j].value * neuron.weights[j]`
for `j = 0 .. layers[i-1].neurons.size()-1`. -/
def weightedSum (prev : Layer) (ws : List ℝ) : ℝ :=
  ((List.range prev.neurons.length).map
    (fun j => (prev.neurons.getD j default).value * ws.getD j 0)).sum

/-- First loop of `forwardPropagation`:
`layers[0].neurons[i].value = inputValues[i]` for `i < layers[0].neurons.size()`. -/
def setInput (l : Layer) (input : List ℝ) : Layer :=
  { neurons := mapIdxFrom (fun i n => { n with value := input.getD i 0 }) 0 l.neurons }

/-- Forward step of a non-final layer: `value = relu(weightedSum + bias)`. -/
noncomputable def reluLayer (prev : Layer) (l : Layer) : Layer :=
  { neurons := l.neurons.map (fun n =>
      { n with value := relu (weightedSum prev n.weights + n.bias) }) }

/-- Forward step of the final layer before softmax: `value = weightedSum + bias`. -/
def rawLayer (prev : Layer) (l : Layer) : Layer :=
  { neurons := l.neurons.map (fun n =>
      { n with value := weightedSum prev n.weights + n.bias }) }

/-- Softmax write-back over the final layer:
`neurons[j].value = softmax(getOutputs())[j]`. -/
noncomputable def softmaxLayer (l : Layer) : Layer :=
  { neurons := mapIdxFrom
      (fun j n => { n with value := (softmax l.getOutputs).getD j 0 }) 0 l.neurons }

/-- The layer loop of `forwardPropagation` for `i = 1 .. layers.size()-1`,
carrying the already-updated previous layer; the last layer gets
`weightedSum + bias` followed by softmax, every other layer gets ReLU. -/
noncomputable def forwardFrom (prev : Layer) : List Layer → List Layer
  | [] => []
  | [l] => [softmaxLayer (rawLayer prev l)]
  | l :: l2 :: rest => reluLayer prev l :: forwardFrom (reluLayer prev l) (l2 :: rest)

/-- `NeuralNetwork::forwardPropagation`: write the input into `layers[0]`'s
activation values, then run the layer loop from index 1.  (On an empty layer
vector the C++ code dereferences `layers[0]`, which cannot happen for the
constructed networks under study; the embedding returns the net unchanged.) -/
noncomputable def forwardPropagation (net : NeuralNetwork) (inputValues : List ℝ) :
    NeuralNetwork :=
  match net.layers with
  | [] => net
  | l0 :: rest =>
      { net with layers := setInput l0 inputValues ::
          forwardFrom (setInput l0 inputValues) rest }

/-- `layers[i]` (out of range totalized by the empty layer). -/
def layerAt (net : NeuralNetwork) (i : ℕ) : Layer :=
  net.layers.getD i default

/-- `layers[l].neurons[j].value`. -/
def valueAt (net : NeuralNetwork) (l j : ℕ) : ℝ :=
  ((layerAt net l).neurons.getD j default).value

/-- `layers[l].neurons[j].weights[k]`. -/
def weightAt (net : NeuralNetwork) (l j k : ℕ) : ℝ :=
  ((layerAt net l).neurons.getD j default).weights.getD k 0

/-- `layers[l].neurons[j].bias`. -/
def biasAt (net : NeuralNetwork) (l j : ℕ) : ℝ :=
  ((layerAt net l).neurons.getD j default).bias

/-- `layers[l].neurons.size()`. -/
def widthAt (net : NeuralNetwork) (l : ℕ) : ℕ :=
  (layerAt net l).neurons.length

/-- `layers.back().neurons.size()`: the output layer's width. -/
def outputWidth (net : NeuralNetwork) : ℕ :=
  (net.layers.getLastD default).neurons.length

/-- The activation vector of `layers.back()` after a forward pass on `input`. -/
noncomputable def outputActivations (net : NeuralNetwork) (input : List ℝ) : List ℝ :=
  ((forwardPropagation net input).layers.getLastD default).getOutputs

/-- `forwardPropagation` reads `inputValues[i]` exactly for
`i = 0 .. layers[0].neurons.size() - 1`; this is the exclusive upper bound
of those reads. -/
def forwardInputReadBound (net : NeuralNetwork) : ℕ :=
  (net.layers.headD default).neurons.length

/-- All input reads performed by `forwardPropagation` are in bounds. -/
def forwardInputInBounds (net : NeuralNetwork) (input : List ℝ) : Prop :=
  forwardInputReadBound net ≤ input.length

/-- The delta vectors of `backPropagation`, indexed by distance from the output
layer: distance 0 is `outputDeltas[i] = layers.back().neurons[i].value - targetValues[i]`;
distance `d+1` (layer index `i = layers.size() - 1 - (d+1)`) is
`hiddenDeltas[i][j] = (Σ_k layers[i+1].neurons[k].weights[j] * delta_{i+1}[k]) * reluDerivative(layers[i].neurons[j].value)`.
All of these are functions of the pre-call network state only, matching the
C++ code, which computes every delta before mutating any weight or bias. -/
noncomputable def deltaFromTop (net : NeuralNetwork) (target : List ℝ) : ℕ → List ℝ
  | 0 => mapIdxFrom (fun i n => n.value - target.getD i 0) 0
      (layerAt net (net.layers.length - 1)).neurons
  | d + 1 =>
      (List.range (widthAt net (net.layers.length - 1 - (d + 1)))).map (fun j =>
        ((List.range (widthAt net (net.layers.length - 1 - (d + 1) + 1))).map (fun k =>
          weightAt net (net.layers.length - 1 - (d + 1) + 1) k j *
            (deltaFromTop net target d).getD k 0)).sum *
        reluDerivative (valueAt net (net.layers.length - 1 - (d + 1)) j))

/-- The delta vector of layer index `l` (`outputDeltas` for the last layer,
`hiddenDeltas[l]` otherwise). -/
noncomputable def delta (net : NeuralNetwork) (target : List ℝ) (l : ℕ) : List ℝ :=
  deltaFromTop net target (net.layers.length - 1 - l)

/-- The body of the weight-update loop of `backPropagation` for layer index
`i`: for `i = 0` the loop (`for i = layers.size()-1; i > 0; --i`) never
reaches the layer, so it is untouched; for `i ≥ 1` every neuron `j` gets
`weights[k] -= learningRate * delta * layers[i-1].neurons[k].value` and
`bias -= learningRate * delta`, where `delta` is `outputDeltas[j]` for the
last layer and `hiddenDeltas[i][j]` otherwise (both precomputed from the
pre-call state `net`). -/
noncomputable def updLayer (net : NeuralNetwork) (target : List ℝ) (i : ℕ) (l : Layer) :
    Layer :=
  if i = 0 then l else
    { neurons := mapIdxFrom (fun j n =>
        { n with
          weights := mapIdxFrom (fun k wv =>
              wv - net.learningRate * (delta net target i).getD j 0 *
                valueAt net (i - 1) k) 0 n.weights
          bias := n.bias - net.learningRate * (delta net target i).getD j 0 })
        0 l.neurons }

/-- `NeuralNetwork::backPropagation`: compute all deltas from the current
state, then for `i = layers.size()-1` down to `1` apply `updLayer`;
`layers[0]` is left untouched by the update loop.  Neuron values are not
mutated, so the updates of different layers, all expressed over the pre-call
state, commute exactly as in the C++ code. -/
noncomputable def backPropagation (net : NeuralNetwork) (target : List ℝ) : NeuralNetwork :=
  { net with layers := mapIdxFrom (updLayer net target) 0 net.layers }

/-- One iteration of the sample loop in `train`: forward then backward. -/
noncomputable def trainStep (net : NeuralNetwork) (input target : List ℝ) :
    NeuralNetwork :=
  backPropagation (forwardPropagation net input) target

/-- One epoch of `train`: `for i < inputs.size(): forward(inputs[i]); backward(targets[i])`. -/
noncomputable def trainSamples (net : NeuralNetwork) (inputs targets : List (List ℝ)) :
    NeuralNetwork :=
  (List.range inputs.length).foldl
    (fun n i => trainStep n (inputs.getD i []) (targets.getD i [])) net

/-- `NeuralNetwork::train`: the epoch loop around `trainSamples`. -/
noncomputable def train (net : NeuralNetwork) (inputs targets : List (List ℝ)) :
    ℕ → NeuralNetwork
  | 0 => net
  | e + 1 => trainSamples (train net inputs targets e) inputs targets

/-- `std::max_element` scan with explicit running index: the current best is
replaced exactly when it compares strictly less than the visited element, so
ties keep the earliest index. -/
noncomputable def maxElementLoop : List ℝ → ℕ → ℕ × ℝ → ℕ × ℝ
  | [], _, best => best
  | x :: t, i, best => maxElementLoop t (i + 1) (if best.2 < x then (i, x) else best)

/-- `distance(v.begin(), max_element(v.begin(), v.end()))` for a real vector
(first-occurring maximum; 0 on the empty vector, where `max_element` returns
`end`). -/
noncomputable def predictIdx : List ℝ → ℕ
  | [] => 0
  | x :: t => (maxElementLoop t 1 (0, x)).1

/-- `NeuralNetwork::predict`: forward pass, then the index of the maximum
value in the output layer. -/
noncomputable def predict (net : NeuralNetwork) (input : List ℝ) : ℕ :=
  predictIdx (outputActivations net input)

/-- The loop of `evaluateAccuracy`: carries the mutated network and the count
of samples whose predicted class equals `argmax(outputs[i])`. -/
noncomputable def evalAccuracyLoop (net : NeuralNetwork)
    (inputs targets : List (List ℝ)) : ℕ × NeuralNetwork :=
  (List.range inputs.length).foldl
    (fun acc i =>
      (if predictIdx (((forwardPropagation acc.2 (inputs.getD i [])).layers.getLastD
            default).getOutputs) = predictIdx (targets.getD i [])
        then acc.1 + 1 else acc.1,
       forwardPropagation acc.2 (inputs.getD i [])))
    (0, net)

/-- `NeuralNetwork::evaluateAccuracy`:
`static_cast<double>(correctPredictions) / inputs.size()`. -/
noncomputable def evaluateAccuracy (net : NeuralNetwork)
    (inputs targets : List (List ℝ)) : ℝ :=
  ((evalAccuracyLoop net inputs targets).1 : ℝ) / (inputs.length : ℝ)

/-- The spec's sum `Σ_k activation_{l-1}[k] · weight_j[k]`, `k` ranging over
the previous layer's activation vector. -/
def specDot (acts ws : List ℝ) : ℝ :=
  ((List.range acts.length).map (fun k => acts.getD k 0 * ws.getD k 0)).sum

/-- Modelled from the spec wording of forward propagation, for comparison with
the code (claim C1): the input vector is the activation vector of virtual
layer 0, every layer computes `raw[j] = bias_j + Σ_k activation_{l-1}[k] ·
weight_j[k]`, non-final layers apply ReLU and the final layer applies softmax
to its raw vector.  (The softmax formula of the spec coincides with the code's
`softmax`, proved in `softmax_spec`.) -/
noncomputable def claimForward (acts : List ℝ) : List Layer → List ℝ
  | [] => acts
  | [l] => softmax (l.neurons.map (fun n => n.bias + specDot acts n.weights))
  | l :: l2 :: rest =>
      claimForward (l.neurons.map (fun n => relu (n.bias + specDot acts n.weights)))
        (l2 :: rest)

/-- Every weight and every bias of the network is zero. -/
def AllZeroParams (net : NeuralNetwork) : Prop :=
  ∀ l ∈ net.layers, ∀ n ∈ l.neurons, n.bias = 0 ∧ ∀ wv ∈ n.weights, wv = 0

/-- Two neurons carry the same persistent parameters (weights and bias);
their transient activation values may differ. -/
def NeuronParamsEq (n n' : Neuron) : Prop :=
  n.weights = n'.weights ∧ n.bias = n'.bias

/-- Two networks are identically configured: same learning rate and the same
layer-by-layer, neuron-by-neuron weights and biases (activation values free). -/
def SameParams (a b : NeuralNetwork) : Prop :=
  a.learningRate = b.learningRate ∧
    List.Forall₂ (fun l l' => List.Forall₂ NeuronParamsEq l.neurons l'.neurons)
      a.layers b.layers

/-- Two networks agree everywhere except possibly on the weights and biases of
the first constructed layer (`layers[0]`), whose activation values still agree. -/
def AgreeExceptFirstParams (a b : NeuralNetwork) : Prop :=
  a.learningRate = b.learningRate ∧
    ∃ l l' rest, a.layers = l :: rest ∧ b.layers = l' :: rest ∧
      List.Forall₂ (fun n n' => n.value = n'.value) l.neurons l'.neurons

/-- The weights and biases of `layers[0]`, as observed data. -/
def firstLayerParams (net : NeuralNetwork) : List (List ℝ × ℝ) :=
  (net.layers.headD default).neurons.map (fun n => (n.weights, n.bias))

/-- One-layer literal network used as the concrete instance for `predict_spec`:
one output neuron, so the output width is 1. -/
def predNet : NeuralNetwork :=
  { layers := [{ neurons := [{ value := 0, weights := [], bias := 0 }] }]
    learningRate := 1 }

/-- All-zero literal network with two constructed layers (sizes `[1, 1, 2]`),
matching `construct [1,1,2] (fun i j k => 0) (fun i j => 0) 1`. -/
def zeroNet3 : NeuralNetwork :=
  { layers := [{ neurons := [{ value := 0, weights := [0], bias := 0 }] },
               { neurons := [{ value := 0, weights := [0], bias := 0 },
                             { value := 0, weights := [0], bias := 0 }] }]
    learningRate := 1 }

/-- The all-zero network with a single constructed layer, as produced by
`construct [1, 1] (fun i j k => 0) (fun i j => 0) 1`. -/
def zeroNet2 : NeuralNetwork :=
  construct [1, 1] (fun _ _ _ => 0) (fun _ _ => 0) 1

/-- Two-layer literal networks differing only in the weights and bias of
`layers[0]` (weights `[10]`, bias `10` versus weights `[20]`, bias `20`). -/
def frameNetA : NeuralNetwork :=
  { layers := [{ neurons := [{ value := 1, weights := [10], bias := 10 }] },
               { neurons := [{ value := 2, weights := [3], bias := 4 }] }]
    learningRate := 1 }

/-- Companion of `frameNetA` with different first-layer parameters. -/
def frameNetB : NeuralNetwork :=
  { layers := [{ neurons := [{ value := 1, weights := [20], bias := 20 }] },
               { neurons := [{ value := 2, weights := [3], bias := 4 }] }]
    learningRate := 1 }

/-- Identically configured one-layer networks whose transient activation
values differ (3 versus 9). -/
def paramNetA : NeuralNetwork :=
  { layers := [{ neurons := [{ value := 3, weights := [1], bias := 2 }] }]
    learningRate := 1 }

/-- Companion of `paramNetA` with a different stale activation value. -/
def paramNetB : NeuralNetwork :=
  { layers := [{ neurons := [{ value := 9, weights := [1], bias := 2 }] }]
    learningRate := 1 }

/-- Network built by `construct [1,1,2]` with the first constructed layer's
weight equal to 2, output-layer weights `[1]` and `[0]`, all biases 0. -/
def c1NetA : NeuralNetwork :=
  construct [1, 1, 2]
    (fun i j _ => if i = 1 then 2 else if j = 0 then 1 else 0) (fun _ _ => 0) 1

/-- Same as `c1NetA` except the first constructed layer's weight is 5. -/
def c1NetB : NeuralNetwork :=
  construct [1, 1, 2]
    (fun i j _ => if i = 1 then 5 else if j = 0 then 1 else 0) (fun _ _ => 0) 1

/-- Two-layer literal network used for the C3 theorems: `layers[0]` has value
1, weights `[10]`, bias 10; `layers[1]` has value 2, weights `[3]`, bias 4. -/
def bpNet : NeuralNetwork :=
  { layers := [{ neurons := [{ value := 1, weights := [10], bias := 10 }] },
               { neurons := [{ value := 2, weights := [3], bias := 4 }] }]
    learningRate := 1 }

/-- The network of the repository's `main`:
`NeuralNetwork({4, 8, 128, 64, 8, 3}, 0.01)` (weight/bias draws abstracted). -/
noncomputable def mainNet : NeuralNetwork :=
  construct [4, 8, 128, 64, 8, 3] (fun _ _ _ => 0) (fun _ _ => 0) (1 / 100)

/-- Arbitrary one-layer network for the `evaluateAccuracy` analysis. -/
def evalNet : NeuralNetwork :=
  { layers := [{ neurons := [{ value := 0, weights := [0], bias := 0 }] }]
    learningRate := 1 }

/-- A `construct [1,1,2]` network: its first constructed layer has one
neuron, so `forwardPropagation` reads exactly one input entry. -/
def cNet : NeuralNetwork :=
  construct [1, 1, 2] (fun _ _ _ => 1) (fun _ _ => 0) 1

/-! ### Basic list-indexing lemmas -/

theorem length_mapIdxFrom {α β : Type} (f : ℕ → α → β) :
    ∀ (i : ℕ) (l : List α), (mapIdxFrom f i l).length = l.length
  | _, [] => rfl
  | i, _ :: t => by simp [mapIdxFrom, length_mapIdxFrom f (i + 1) t]

theorem getD_mapIdxFrom {α β : Type} (f : ℕ → α → β) (d : β) (d' : α) :
    ∀ (l : List α) (i j : ℕ), j < l.length →
      (mapIdxFrom f i l).getD j d = f (i + j) (l.getD j d')
  | [], _, j, h => by simp at h
  | a :: t, i, 0, _ => rfl
  | a :: t, i, j + 1, h => by
      have := getD_mapIdxFrom f d d' t (i + 1) j (by simpa using h)
      simpa [mapIdxFrom, Nat.add_assoc, Nat.add_comm 1 j] using this

theorem getD_map' {α β : Type} (f : α → β) (d : β) (d' : α) :
    ∀ (l : List α) (i : ℕ), i < l.length → (l.map f).getD i d = f (l.getD i d')
  | [], i, h => by simp at h
  | a :: t, 0, _ => rfl
  | a :: t, i + 1, h => getD_map' f d d' t i (by simpa using h)

theorem getD_range' (d : ℕ) (n i : ℕ) (h : i < n) : (List.range n).getD i d = i := by
  rw [List.getD_eq_getElem?_getD, List.getElem?_range h]
  rfl

theorem getD_map_range {β : Type} (f : ℕ → β) (d : β) (n i : ℕ) (h : i < n) :
    ((List.range n).map f).getD i d = f i := by
  rw [getD_map' f d 0 _ i (by simpa using h), getD_range' 0 n i h]

theorem getLastD_independent {α : Type} :
    ∀ (l : List α) (d d' : α), l ≠ [] → l.getLastD d = l.getLastD d'
  | [], _, _, h => absurd rfl h
  | [_], _, _, _ => rfl
  | a :: b :: t, d, d', _ => by rw [List.getLastD_cons d, List.getLastD_cons d']

theorem getD_singleton {α : Type} (a d : α) : ([a] : List α).getD 0 d = a := rfl

/-! ### Properties of the running maximum and of `softmax` -/

theorem le_foldl_max : ∀ (t : List ℝ) (a : ℝ), a ≤ t.foldl max a
  | [], _ => le_refl _
  | x :: t, a => le_trans (le_max_left a x) (le_foldl_max t (max a x))

theorem foldl_max_le_mem :
    ∀ (t : List ℝ) (a : ℝ), ∀ y ∈ t, y ≤ t.foldl max a
  | [], _, _, hy => by simp at hy
  | x :: t, a, y, hy => by
      rcases List.mem_cons.mp hy with h | h
      · subst h
        exact le_trans (le_max_right a y) (le_foldl_max t (max a y))
      · exact foldl_max_le_mem t (max a x) y h

theorem foldl_max_mem :
    ∀ (t : List ℝ) (a : ℝ), t.foldl max a = a ∨ t.foldl max a ∈ t
  | [], _ => Or.inl rfl
  | x :: t, a => by
      rcases foldl_max_mem t (max a x) with h | h
      · rcases le_total a x with hax | hxa
        · right
          rw [List.foldl_cons, h, max_eq_right hax]
          exact List.mem_cons_self x t
        · left
          rw [List.foldl_cons, h, max_eq_left hxa]
      · right
        exact List.mem_cons_of_mem x h

theorem maxElem_mem (x : List ℝ) (hx : x ≠ []) : maxElem x ∈ x := by
  cases x with
  | nil => exact absurd rfl hx
  | cons a t =>
      rcases foldl_max_mem (a :: t) ((a :: t).headD 0) with h | h
      · rw [maxElem, h]
        exact List.mem_cons_self a t
      · exact h

theorem le_maxElem (x : List ℝ) (y : ℝ) (hy : y ∈ x) : y ≤ maxElem x :=
  foldl_max_le_mem x (x.headD 0) y hy

theorem maxElem_eq_of_max (x : List ℝ) (m : ℝ) (hx : x ≠ [])
    (hm : m ∈ x) (hub : ∀ y ∈ x, y ≤ m) : maxElem x = m :=
  le_antisymm (hub _ (maxElem_mem x hx)) (le_maxElem x m hm)

theorem foldl_max_map_add :
    ∀ (t : List ℝ) (a c : ℝ), (t.map (fun y => y + c)).foldl max (a + c) = t.foldl max a + c
  | [], _, _ => rfl
  | x :: t, a, c => by
      simp only [List.map_cons, List.foldl_cons, max_add_add_right]
      exact foldl_max_map_add t (max a x) c

theorem maxElem_map_add (x : List ℝ) (c : ℝ) (hx : x ≠ []) :
    maxElem (x.map (fun y => y + c)) = maxElem x + c := by
  cases x with
  | nil => exact absurd rfl hx
  | cons a t =>
      simp only [maxElem, List.map_cons, List.headD_cons]
      exact foldl_max_map_add (a :: t) a c

theorem sum_map_div (l : List ℝ) (c : ℝ) :
    (l.map (fun e => e / c)).sum = l.sum / c := by
  induction l with
  | nil => simp
  | cons a t ih => simp only [List.map_cons, List.sum_cons, ih, add_div]

theorem softmax_length (x : List ℝ) : (softmax x).length = x.length := by
  simp [softmax]

theorem expSum_pos (x : List ℝ) (hx : x ≠ []) :
    0 < (x.map (fun xi => Real.exp (xi - maxElem x))).sum := by
  refine List.sum_pos _ ?_ (by simpa using hx)
  intro a ha
  rcases List.mem_map.mp ha with ⟨y, _, hy⟩
  rw [← hy]
  exact Real.exp_pos _

theorem softmax_sum (x : List ℝ) (hx : x ≠ []) : (softmax x).sum = 1 := by
  rw [softmax, sum_map_div, div_self (ne_of_gt (expSum_pos x hx))]

theorem softmax_getD (x : List ℝ) (i : ℕ) (hi : i < x.length) :
    (softmax x).getD i 0 =
      Real.exp (x.getD i 0 - maxElem x) /
        (x.map (fun xi => Real.exp (xi - maxElem x))).sum := by
  rw [softmax, getD_map' _ 0 0 _ i (by simpa using hi),
    getD_map' _ 0 0 _ i (by simpa using hi)]

theorem softmax_map_add (x : List ℝ) (c : ℝ) (hx : x ≠ []) :
    softmax (x.map (fun y => y + c)) = softmax x := by
  have hmap : (x.map (fun y => y + c)).map
      (fun xi => Real.exp (xi - maxElem (x.map (fun y => y + c)))) =
      x.map (fun xi => Real.exp (xi - maxElem x)) := by
    rw [maxElem_map_add x c hx, List.map_map]
    refine List.map_congr_left ?_
    intro y _
    simp only [Function.comp]
    ring_nf
  rw [softmax, softmax, hmap]

theorem foldl_max_replicate_zero : ∀ n : ℕ, (List.replicate n (0 : ℝ)).foldl max 0 = 0
  | 0 => rfl
  | n + 1 => by
      simp only [List.replicate_succ, List.foldl_cons, max_self]
      exact foldl_max_replicate_zero n

theorem maxElem_replicate_zero (n : ℕ) : maxElem (List.replicate n (0 : ℝ)) = 0 := by
  cases n with
  | zero => rfl
  | succ n =>
      simp only [maxElem, List.replicate_succ, List.headD_cons, List.foldl_cons, max_self]
      exact foldl_max_replicate_zero n

theorem softmax_replicate_zero (n : ℕ) :
    softmax (List.replicate n (0 : ℝ)) = List.replicate n (1 / (n : ℝ)) := by
  have hexp : (List.replicate n (0 : ℝ)).map
      (fun xi => Real.exp (xi - maxElem (List.replicate n (0 : ℝ)))) =
      List.replicate n 1 := by
    rw [maxElem_replicate_zero, List.map_replicate]
    simp
  rw [softmax, hexp]
  have hsum : (List.replicate n (1 : ℝ)).sum = (n : ℝ) := by
    simp [List.sum_replicate]
  rw [hsum, List.map_replicate]

/-! ### Claim C4: algebraic properties of `softmax` -/

/-- Claim C4: for every finite real vector `x`, `softmax x` sums to 1, softmax
is invariant under adding a constant `c` to every component, and component `i`
equals `exp (x i - m) / Σ_j exp (x j - m)` where `m` is the maximum of `x`
(characterized abstractly as an upper bound belonging to `x`). -/
theorem softmax_spec (x : List ℝ) (c m : ℝ) (hx : x ≠ []) (hm : m ∈ x)
    (hub : ∀ y ∈ x, y ≤ m) :
    (softmax x).sum = 1 ∧
    softmax (x.map (fun y => y + c)) = softmax x ∧
    ∀ i < x.length, (softmax x).getD i 0 =
      Real.exp (x.getD i 0 - m) / (x.map (fun y => Real.exp (y - m))).sum := by
  have hmax := maxElem_eq_of_max x m hx hm hub
  refine ⟨softmax_sum x hx, softmax_map_add x c hx, ?_⟩
  intro i hi
  rw [softmax_getD x i hi, hmax]

/-- Witness for `softmax_spec` at `x = [0, 1]`, `c = 2`, `m = 1`. -/
theorem softmax_spec_witness :
    (([(0 : ℝ), 1] : List ℝ) ≠ [] ∧ (1 : ℝ) ∈ ([(0 : ℝ), 1] : List ℝ) ∧
      (∀ y ∈ ([(0 : ℝ), 1] : List ℝ), y ≤ 1)) ∧
    ((softmax [(0 : ℝ), 1]).sum = 1 ∧
     softmax (([(0 : ℝ), 1] : List ℝ).map (fun y => y + 2)) = softmax [(0 : ℝ), 1] ∧
     ∀ i < ([(0 : ℝ), 1] : List ℝ).length, (softmax [(0 : ℝ), 1]).getD i 0 =
       Real.exp (([(0 : ℝ), 1] : List ℝ).getD i 0 - 1) /
         (([(0 : ℝ), 1] : List ℝ).map (fun y => Real.exp (y - 1))).sum) := by
  have hub : ∀ y ∈ ([(0 : ℝ), 1] : List ℝ), y ≤ 1 := by
    intro y hy
    rcases List.mem_cons.mp hy with h | h
    · rw [h]; norm_num
    · have hy1 : y = 1 := by simpa using h
      rw [hy1]
  exact ⟨⟨by simp, by simp, hub⟩, softmax_spec [0, 1] 2 1 (by simp) (by simp) hub⟩

/-! ### The `max_element` scan and claim C7 -/

theorem maxElementLoop_spec (v : ℕ → ℝ) :
    ∀ (t : List ℝ) (i bi : ℕ) (bv : ℝ),
      (∀ k, k < t.length → t.getD k 0 = v (i + k)) →
      bi < i → v bi = bv →
      (∀ j < i, v j ≤ bv) → (∀ j < bi, v j < bv) →
      (maxElementLoop t i (bi, bv)).1 < i + t.length ∧
      v (maxElementLoop t i (bi, bv)).1 = (maxElementLoop t i (bi, bv)).2 ∧
      (∀ j < i + t.length, v j ≤ (maxElementLoop t i (bi, bv)).2) ∧
      (∀ j < (maxElementLoop t i (bi, bv)).1, v j < (maxElementLoop t i (bi, bv)).2) := by
  intro t
  induction t with
  | nil =>
      intro i bi bv _ h1 h2 h3 h4
      exact ⟨by simpa using h1, h2, by simpa using h3, fun j hj => h4 j hj⟩
  | cons y t' ih =>
      intro i bi bv hk h1 h2 h3 h4
      have hy : y = v i := by simpa using hk 0 (by simp)
      have hk' : ∀ k, k < t'.length → t'.getD k 0 = v (i + 1 + k) := by
        intro k hkk
        have := hk (k + 1) (by simpa using Nat.succ_lt_succ hkk)
        simpa [Nat.add_assoc, Nat.add_comm 1 k] using this
      have hlen : (y :: t').length = t'.length + 1 := rfl
      by_cases hcmp : bv < y
      · have hres := ih (i + 1) i y hk' (Nat.lt_succ_self i) hy.symm
          (by
            intro j hj
            rcases Nat.lt_succ_iff_lt_or_eq.mp hj with hj' | hj'
            · exact le_of_lt (lt_of_le_of_lt (h3 j hj') (hy ▸ hcmp))
            · rw [hj', ← hy])
          (by
            intro j hj
            exact lt_of_le_of_lt (h3 j hj) (hy ▸ hcmp))
        have hstep : maxElementLoop (y :: t') i (bi, bv) =
            maxElementLoop t' (i + 1) (i, y) := by
          simp [maxElementLoop, hcmp]
        rw [hstep]
        refine ⟨?_, hres.2.1, ?_, hres.2.2.2⟩
        · have := hres.1
          rw [hlen]
          omega
        · intro j hj
          rw [hlen] at hj
          exact hres.2.2.1 j (by omega)
      · have hyle : y ≤ bv := not_lt.mp hcmp
        have hres := ih (i + 1) bi bv hk' (Nat.lt_succ_of_lt h1) h2
          (by
            intro j hj
            rcases Nat.lt_succ_iff_lt_or_eq.mp hj with hj' | hj'
            · exact h3 j hj'
            · rw [hj', ← hy]; exact hyle)
          h4
        have hstep : maxElementLoop (y :: t') i (bi, bv) =
            maxElementLoop t' (i + 1) (bi, bv) := by
          simp [maxElementLoop, hcmp]
        rw [hstep]
        refine ⟨?_, hres.2.1, ?_, hres.2.2.2⟩
        · have := hres.1
          rw [hlen]
          omega
        · intro j hj
          rw [hlen] at hj
          exact hres.2.2.1 j (by omega)

theorem predictIdx_spec (xs : List ℝ) (hxs : xs ≠ []) :
    predictIdx xs < xs.length ∧
    (∀ j < xs.length, xs.getD j 0 ≤ xs.getD (predictIdx xs) 0) ∧
    (∀ j < predictIdx xs, xs.getD j 0 < xs.getD (predictIdx xs) 0) := by
  cases xs with
  | nil => exact absurd rfl hxs
  | cons x t =>
      have hres := maxElementLoop_spec (fun j => (x :: t).getD j 0) t 1 0 x
        (by
          intro k hk
          simp [Nat.add_comm 1 k])
        Nat.one_pos rfl
        (by
          intro j hj
          have hj0 : j = 0 := by omega
          rw [hj0]
          exact le_refl _)
        (by intro j hj; omega)
      have hpi : predictIdx (x :: t) = (maxElementLoop t 1 (0, x)).1 := rfl
      have h21 : (x :: t).getD (maxElementLoop t 1 (0, x)).1 0 =
          (maxElementLoop t 1 (0, x)).2 := hres.2.1
      refine ⟨?_, ?_, ?_⟩
      · rw [hpi]
        simpa [Nat.add_comm 1 t.length] using hres.1
      · intro j hj
        rw [hpi, h21]
        exact hres.2.2.1 j (by simpa [Nat.add_comm 1 t.length] using hj)
      · intro j hj
        rw [hpi, h21]
        exact hres.2.2.2 j (by simpa using hj)

/-! ### Structural facts about the forward pass -/

theorem length_getOutputs (l : Layer) : l.getOutputs.length = l.neurons.length := by
  simp [Layer.getOutputs]

theorem neurons_length_setInput (l : Layer) (input : List ℝ) :
    (setInput l input).neurons.length = l.neurons.length :=
  length_mapIdxFrom _ 0 l.neurons

theorem neurons_length_softmaxLayer (l : Layer) :
    (softmaxLayer l).neurons.length = l.neurons.length :=
  length_mapIdxFrom _ 0 l.neurons

theorem neurons_length_rawLayer (prev l : Layer) :
    (rawLayer prev l).neurons.length = l.neurons.length := by
  simp [rawLayer]

theorem neurons_length_reluLayer (prev l : Layer) :
    (reluLayer prev l).neurons.length = l.neurons.length := by
  simp [reluLayer]

theorem forwardFrom_length :
    ∀ (prev : Layer) (ls : List Layer), (forwardFrom prev ls).length = ls.length
  | _, [] => rfl
  | _, [_] => rfl
  | prev, l :: l2 :: rest => by
      simp only [forwardFrom, List.length_cons]
      rw [forwardFrom_length (reluLayer prev l) (l2 :: rest)]
      simp

theorem forwardFrom_ne_nil (prev : Layer) (ls : List Layer) (h : ls ≠ []) :
    forwardFrom prev ls ≠ [] := by
  intro hcon
  have := forwardFrom_length prev ls
  rw [hcon] at this
  exact h (List.length_eq_zero.mp this.symm)

theorem forwardFrom_last_width :
    ∀ (prev : Layer) (ls : List Layer), ls ≠ [] → ∀ (d d' : Layer),
      ((forwardFrom prev ls).getLastD d).neurons.length =
        (ls.getLastD d').neurons.length
  | _, [], h => absurd rfl h
  | prev, [l], _ => fun d d' => by
      simp only [forwardFrom, List.getLastD_cons, List.getLastD_nil]
      rw [neurons_length_softmaxLayer, neurons_length_rawLayer]
  | prev, l :: l2 :: rest, _ => fun d d' => by
      have hne : forwardFrom (reluLayer prev l) (l2 :: rest) ≠ [] :=
        forwardFrom_ne_nil _ _ (by simp)
      rw [show forwardFrom prev (l :: l2 :: rest) =
            reluLayer prev l :: forwardFrom (reluLayer prev l) (l2 :: rest) from rfl,
        List.getLastD_cons, List.getLastD_cons,
        getLastD_independent _ _ (reluLayer prev l) hne,
        forwardFrom_last_width (reluLayer prev l) (l2 :: rest) (by simp)
          (reluLayer prev l) l]

theorem outputActivations_length (net : NeuralNetwork) (input : List ℝ) :
    (outputActivations net input).length = outputWidth net := by
  rcases hnet : net.layers with _ | ⟨l0, rest⟩
  · simp [outputActivations, forwardPropagation, outputWidth, hnet, Layer.getOutputs]
  · rcases hrest : rest with _ | ⟨l1, rest'⟩
    · simp only [outputActivations, forwardPropagation, hnet, hrest, forwardFrom,
        List.getLastD_cons, List.getLastD_nil, outputWidth, length_getOutputs]
      rw [neurons_length_setInput]
    · have hne : forwardFrom (setInput l0 input) (l1 :: rest') ≠ [] :=
        forwardFrom_ne_nil _ _ (by simp)
      simp only [outputActivations, forwardPropagation, hnet, hrest,
        List.getLastD_cons, outputWidth, length_getOutputs]
      rw [getLastD_independent _ _ (setInput l0 input) hne,
        forwardFrom_last_width (setInput l0 input) (l1 :: rest') (by simp)
          (setInput l0 input) l0, List.getLastD_cons]

/-! ### Claim C7: `predict` returns the first argmax of the output layer -/

/-- Claim C7: `predict` runs one forward pass and returns the index of the
maximum value of the output activation vector; ties go to the lowest index,
and the result lies in `[0, outputWidth)`. -/
theorem predict_spec (net : NeuralNetwork) (input : List ℝ)
    (h : outputWidth net ≠ 0) :
    predict net input < outputWidth net ∧
    (∀ j < outputWidth net, (outputActivations net input).getD j 0 ≤
      (outputActivations net input).getD (predict net input) 0) ∧
    (∀ j < predict net input, (outputActivations net input).getD j 0 <
      (outputActivations net input).getD (predict net input) 0) := by
  have hlen := outputActivations_length net input
  have hne : outputActivations net input ≠ [] := by
    intro hcon
    rw [hcon] at hlen
    exact h hlen.symm
  have hres := predictIdx_spec (outputActivations net input) hne
  rw [hlen] at hres
  exact ⟨hres.1, hres.2.1, hres.2.2⟩

/-- Witness for `predict_spec` on `predNet` with input `[7]`. -/
theorem predict_spec_witness :
    outputWidth predNet ≠ 0 ∧
    (predict predNet [7] < outputWidth predNet ∧
     (∀ j < outputWidth predNet, (outputActivations predNet [7]).getD j 0 ≤
       (outputActivations predNet [7]).getD (predict predNet [7]) 0) ∧
     (∀ j < predict predNet [7], (outputActivations predNet [7]).getD j 0 <
       (outputActivations predNet [7]).getD (predict predNet [7]) 0)) :=
  ⟨by simp [outputWidth, predNet], predict_spec predNet [7] (by simp [outputWidth, predNet])⟩

/-! ### Claim C8: all-zero parameters give the uniform output distribution -/

theorem ext_getD {α : Type} (d : α) :
    ∀ (l l' : List α), l.length = l'.length →
      (∀ i < l.length, l.getD i d = l'.getD i d) → l = l'
  | [], [], _, _ => rfl
  | [], _ :: _, h, _ => by simp at h
  | _ :: _, [], h, _ => by simp at h
  | a :: t, a' :: t', h, hp => by
      have h0 : a = a' := hp 0 (by simp)
      have ht : t = t' := ext_getD d t t' (by simpa using h)
        (fun i hi => by simpa using hp (i + 1) (by simpa using hi))
      rw [h0, ht]

theorem getOutputs_softmaxLayer (L : Layer) :
    (softmaxLayer L).getOutputs = softmax L.getOutputs := by
  refine ext_getD 0 _ _ ?_ ?_
  · rw [length_getOutputs, neurons_length_softmaxLayer, softmax_length,
      length_getOutputs]
  · intro i hi
    rw [length_getOutputs, neurons_length_softmaxLayer] at hi
    rw [Layer.getOutputs, getD_map' _ 0 default _ i (by
      rw [neurons_length_softmaxLayer]; exact hi)]
    rw [softmaxLayer]
    rw [getD_mapIdxFrom _ default default L.neurons 0 i hi]
    simp

theorem getD_zero_of_all_zero :
    ∀ (ws : List ℝ), (∀ w ∈ ws, w = 0) → ∀ j, ws.getD j 0 = 0
  | [], _, j => by simp
  | a :: t, h, 0 => h a (List.mem_cons_self a t)
  | a :: t, h, j + 1 =>
      getD_zero_of_all_zero t (fun w hw => h w (List.mem_cons_of_mem a hw)) j

theorem weightedSum_all_zero (prev : Layer) (ws : List ℝ)
    (h : ∀ w ∈ ws, w = 0) : weightedSum prev ws = 0 := by
  rw [weightedSum]
  refine List.sum_eq_zero ?_
  intro a ha
  rcases List.mem_map.mp ha with ⟨j, _, hj⟩
  rw [← hj, getD_zero_of_all_zero ws h j, mul_zero]

theorem getOutputs_rawLayer_all_zero (prev l : Layer)
    (h : ∀ n ∈ l.neurons, n.bias = 0 ∧ ∀ wv ∈ n.weights, wv = 0) :
    (rawLayer prev l).getOutputs = List.replicate l.neurons.length 0 := by
  rw [rawLayer, Layer.getOutputs, List.map_map]
  refine List.eq_replicate_iff.mpr ⟨by simp, ?_⟩
  intro b hb
  rcases List.mem_map.mp hb with ⟨n, hn, hval⟩
  rw [← hval]
  simp only [Function.comp]
  rw [weightedSum_all_zero prev n.weights (h n hn).2, (h n hn).1, add_zero]

theorem forwardFrom_all_zero_last :
    ∀ (prev : Layer) (ls : List Layer), ls ≠ [] →
      (∀ l ∈ ls, ∀ n ∈ l.neurons, n.bias = 0 ∧ ∀ wv ∈ n.weights, wv = 0) →
      ∀ (d d' : Layer),
        ((forwardFrom prev ls).getLastD d).getOutputs =
          List.replicate ((ls.getLastD d').neurons.length)
            (1 / (((ls.getLastD d').neurons.length : ℕ) : ℝ))
  | _, [], h, _ => absurd rfl h
  | prev, [l], _, hz => fun d d' => by
      simp only [forwardFrom, List.getLastD_cons, List.getLastD_nil]
      rw [getOutputs_softmaxLayer,
        getOutputs_rawLayer_all_zero prev l (hz l (List.mem_cons_self l [])),
        softmax_replicate_zero]
  | prev, l :: l2 :: rest, _, hz => fun d d' => by
      have hz' : ∀ la ∈ l2 :: rest, ∀ n ∈ la.neurons,
          n.bias = 0 ∧ ∀ wv ∈ n.weights, wv = 0 :=
        fun la hla => hz la (List.mem_cons_of_mem l hla)
      have hne : forwardFrom (reluLayer prev l) (l2 :: rest) ≠ [] :=
        forwardFrom_ne_nil _ _ (by simp)
      rw [show forwardFrom prev (l :: l2 :: rest) =
            reluLayer prev l :: forwardFrom (reluLayer prev l) (l2 :: rest) from rfl,
        List.getLastD_cons, List.getLastD_cons,
        getLastD_independent _ _ (reluLayer prev l) hne,
        forwardFrom_all_zero_last (reluLayer prev l) (l2 :: rest) (by simp) hz'
          (reluLayer prev l) l,
        getLastD_independent (l2 :: rest) l d' (by simp)]

/-- Amended claim C8: in a network with all weights and biases zero AND at
least two constructed layers (three or more configured layer sizes), a forward
pass on any input produces the uniform distribution `1/outputWidth` on the
output layer.  (With a single constructed layer the code applies no softmax at
all; see `zero_network_single_layer_counterexample`.) -/
theorem zero_network_uniform_output (net : NeuralNetwork) (input : List ℝ)
    (h2 : 2 ≤ net.layers.length) (hz : AllZeroParams net) :
    outputActivations net input =
      List.replicate (outputWidth net) (1 / ((outputWidth net : ℕ) : ℝ)) := by
  rcases hnet : net.layers with _ | ⟨l0, rest⟩
  · rw [hnet] at h2; simp at h2
  · rcases hrest : rest with _ | ⟨l1, rest'⟩
    · rw [hnet, hrest] at h2; simp at h2
    · have hz' : ∀ la ∈ l1 :: rest', ∀ n ∈ la.neurons,
          n.bias = 0 ∧ ∀ wv ∈ n.weights, wv = 0 := by
        intro la hla
        refine hz la ?_
        rw [hnet, hrest]
        exact List.mem_cons_of_mem l0 hla
      have hne : forwardFrom (setInput l0 input) (l1 :: rest') ≠ [] :=
        forwardFrom_ne_nil _ _ (by simp)
      have hout : outputWidth net = ((l1 :: rest').getLastD l0).neurons.length := by
        rw [outputWidth, hnet, hrest, List.getLastD_cons]
      rw [outputActivations, forwardPropagation]
      rw [hnet, hrest]
      simp only [List.getLastD_cons]
      rw [getLastD_independent _ _ (setInput l0 input) hne,
        forwardFrom_all_zero_last (setInput l0 input) (l1 :: rest') (by simp) hz'
          (setInput l0 input) l0, hout]

/-- Witness for `zero_network_uniform_output` on `zeroNet3` with input `[7]`. -/
theorem zero_network_uniform_output_witness :
    (2 ≤ zeroNet3.layers.length ∧ AllZeroParams zeroNet3) ∧
    outputActivations zeroNet3 [7] =
      List.replicate (outputWidth zeroNet3) (1 / ((outputWidth zeroNet3 : ℕ) : ℝ)) := by
  have hz : AllZeroParams zeroNet3 := by
    intro l hl n hn
    rcases List.mem_cons.mp hl with h | h
    · rw [h] at hn
      have hn' : n = { value := 0, weights := [0], bias := 0 } := by simpa using hn
      rw [hn']
      exact ⟨rfl, by intro wv hwv; simpa using hwv⟩
    · have hl' : l = { neurons := [{ value := 0, weights := [0], bias := 0 },
                                   { value := 0, weights := [0], bias := 0 }] } := by
        simpa [zeroNet3] using h
      rw [hl'] at hn
      have hn' : n = { value := 0, weights := [0], bias := 0 } := by
        rcases List.mem_cons.mp hn with h' | h'
        · exact h'
        · simpa using h'
      rw [hn']
      exact ⟨rfl, by intro wv hwv; simpa using hwv⟩
  exact ⟨⟨by simp [zeroNet3], hz⟩,
    zero_network_uniform_output zeroNet3 [7] (by simp [zeroNet3]) hz⟩

/-- Counterexample to claim C8 as stated: `zeroNet2` has every weight and bias
zero, yet a forward pass on `[5]` leaves the output at `[5]`, not the uniform
distribution `[1]` — with a single constructed layer the code's forward pass
writes the input into `layers[0]` and never reaches the softmax branch. -/
theorem zero_network_single_layer_counterexample :
    AllZeroParams zeroNet2 ∧
    outputActivations zeroNet2 [5] ≠
      List.replicate (outputWidth zeroNet2) (1 / ((outputWidth zeroNet2 : ℕ) : ℝ)) := by
  have hnet : zeroNet2.layers = [{ neurons := [{ value := 0, weights := [0], bias := 0 }] }] := by
    simp only [zeroNet2, construct, List.range']
    rfl
  constructor
  · intro l hl n hn
    rw [hnet] at hl
    have hl' : l = { neurons := [{ value := 0, weights := [0], bias := 0 }] } := by
      simpa using hl
    rw [hl'] at hn
    have hn' : n = { value := 0, weights := [0], bias := 0 } := by simpa using hn
    rw [hn']
    exact ⟨rfl, by intro wv hwv; simpa using hwv⟩
  · have hwidth : outputWidth zeroNet2 = 1 := by
      rw [outputWidth, hnet]
      rfl
    have hout : outputActivations zeroNet2 [5] = [5] := by
      rw [outputActivations, forwardPropagation, hnet]
      rfl
    rw [hout, hwidth]
    intro hcon
    simp only [List.replicate, List.cons.injEq] at hcon
    norm_num at hcon

/-! ### Congruence lemmas: the forward and backward passes read neuron values
of the previous layer, never its weights or bias -/

theorem forwardPropagation_cons (net : NeuralNetwork) (l0 : Layer)
    (rest : List Layer) (h : net.layers = l0 :: rest) (input : List ℝ) :
    forwardPropagation net input =
      { layers := setInput l0 input :: forwardFrom (setInput l0 input) rest
        learningRate := net.learningRate } := by
  rw [forwardPropagation, h]

theorem forwardPropagation_nil (net : NeuralNetwork) (input : List ℝ)
    (h : net.layers = []) : forwardPropagation net input = net := by
  rw [forwardPropagation, h]

theorem forall2_val_getD {ns ns' : List Neuron}
    (h : List.Forall₂ (fun n n' => n.value = n'.value) ns ns') :
    ∀ j, (ns.getD j default).value = (ns'.getD j default).value := by
  induction h with
  | nil => intro j; rfl
  | cons h1 h2 ih =>
      intro j
      cases j with
      | zero => exact h1
      | succ j => exact ih j

theorem weightedSum_congr {p p' : Layer}
    (h : List.Forall₂ (fun n n' => n.value = n'.value) p.neurons p'.neurons)
    (ws : List ℝ) : weightedSum p ws = weightedSum p' ws := by
  rw [weightedSum, weightedSum, h.length_eq]
  refine congrArg List.sum (List.map_congr_left ?_)
  intro j _
  rw [forall2_val_getD h j]

theorem rawLayer_congr {p p' : Layer}
    (h : List.Forall₂ (fun n n' => n.value = n'.value) p.neurons p'.neurons)
    (l : Layer) : rawLayer p l = rawLayer p' l := by
  rw [rawLayer, rawLayer]
  refine congrArg Layer.mk (List.map_congr_left ?_)
  intro n _
  rw [weightedSum_congr h n.weights]

theorem reluLayer_congr {p p' : Layer}
    (h : List.Forall₂ (fun n n' => n.value = n'.value) p.neurons p'.neurons)
    (l : Layer) : reluLayer p l = reluLayer p' l := by
  rw [reluLayer, reluLayer]
  refine congrArg Layer.mk (List.map_congr_left ?_)
  intro n _
  rw [weightedSum_congr h n.weights]

theorem forwardFrom_congr {p p' : Layer}
    (h : List.Forall₂ (fun n n' => n.value = n'.value) p.neurons p'.neurons) :
    ∀ ls : List Layer, forwardFrom p ls = forwardFrom p' ls
  | [] => rfl
  | [l] => by
      show [softmaxLayer (rawLayer p l)] = [softmaxLayer (rawLayer p' l)]
      rw [rawLayer_congr h l]
  | l :: l2 :: rest => by
      show reluLayer p l :: forwardFrom (reluLayer p l) (l2 :: rest) =
        reluLayer p' l :: forwardFrom (reluLayer p' l) (l2 :: rest)
      rw [reluLayer_congr h l]

theorem setInput_valEq (input : List ℝ) :
    ∀ (ns ns' : List Neuron) (i : ℕ), ns.length = ns'.length →
      List.Forall₂ (fun n n' => n.value = n'.value)
        (mapIdxFrom (fun i n => { n with value := input.getD i 0 }) i ns)
        (mapIdxFrom (fun i n => { n with value := input.getD i 0 }) i ns')
  | [], [], _, _ => List.Forall₂.nil
  | [], _ :: _, _, h => by simp at h
  | _ :: _, [], _, h => by simp at h
  | n :: t, n' :: t', i, h =>
      List.Forall₂.cons rfl (setInput_valEq input t t' (i + 1) (by simpa using h))

theorem getOutputs_congr {ns ns' : List Neuron}
    (h : List.Forall₂ (fun n n' => n.value = n'.value) ns ns') :
    ns.map (fun n => n.value) = ns'.map (fun n => n.value) := by
  induction h with
  | nil => rfl
  | cons h1 h2 ih => simp only [List.map_cons, h1, ih]

theorem outputDelta_congr (target : List ℝ) {ns ns' : List Neuron}
    (h : List.Forall₂ (fun n n' => n.value = n'.value) ns ns') :
    ∀ i, mapIdxFrom (fun i n => n.value - target.getD i 0) i ns =
      mapIdxFrom (fun i n => n.value - target.getD i 0) i ns' := by
  induction h with
  | nil => intro i; rfl
  | cons h1 h2 ih =>
      intro i
      simp only [mapIdxFrom, h1, ih (i + 1)]

theorem mapIdxFrom_congr_ge {α β : Type} (f g : ℕ → α → β)
    (hfg : ∀ j x, 1 ≤ j → f j x = g j x) :
    ∀ (l : List α) (i : ℕ), 1 ≤ i → mapIdxFrom f i l = mapIdxFrom g i l
  | [], _, _ => rfl
  | a :: t, i, hi => by
      simp only [mapIdxFrom, hfg i a hi,
        mapIdxFrom_congr_ge f g hfg t (i + 1) (Nat.le_succ_of_le hi)]

/-- Under `AgreeExceptFirstParams` the forward pass produces related networks
with identical output activations, and the first layer keeps its parameters. -/
theorem forward_agree {a b : NeuralNetwork} (input : List ℝ)
    (hR : AgreeExceptFirstParams a b) :
    AgreeExceptFirstParams (forwardPropagation a input) (forwardPropagation b input) ∧
    outputActivations a input = outputActivations b input := by
  rcases hR with ⟨hlr, l, l', rest, ha, hb, hval⟩
  have hfa := forwardPropagation_cons a l rest ha input
  have hfb := forwardPropagation_cons b l' rest hb input
  have hsets : List.Forall₂ (fun n n' => n.value = n'.value)
      (setInput l input).neurons (setInput l' input).neurons :=
    setInput_valEq input l.neurons l'.neurons 0 hval.length_eq
  have hff : forwardFrom (setInput l input) rest =
      forwardFrom (setInput l' input) rest :=
    forwardFrom_congr hsets rest
  constructor
  · exact ⟨by rw [hfa, hfb]; exact hlr,
      setInput l input, setInput l' input,
      forwardFrom (setInput l input) rest,
      by rw [hfa], by rw [hfb, hff], hsets⟩
  · rw [outputActivations, outputActivations, hfa, hfb, ← hff]
    rcases hrest : rest with _ | ⟨r1, rest'⟩
    · simp only [forwardFrom, List.getLastD_cons, List.getLastD_nil]
      exact getOutputs_congr hsets
    · have hne : forwardFrom (setInput l input) (r1 :: rest') ≠ [] :=
        forwardFrom_ne_nil _ _ (by simp)
      simp only [List.getLastD_cons]
      rw [getLastD_independent _ (setInput l input) (setInput l' input) hne]

theorem deltaFromTop_congr {a b : NeuralNetwork} (target : List ℝ)
    (hR : AgreeExceptFirstParams a b) :
    ∀ d, deltaFromTop a target d = deltaFromTop b target d := by
  rcases hR with ⟨hlr, l, l', rest, ha, hb, hval⟩
  have hlen : b.layers.length = a.layers.length := by rw [ha, hb]; simp
  have hlayer_pos : ∀ k, layerAt b (k + 1) = layerAt a (k + 1) := by
    intro k
    rw [layerAt, layerAt, ha, hb, List.getD_cons_succ, List.getD_cons_succ]
  have hlayer0a : layerAt a 0 = l := by rw [layerAt, ha]; rfl
  have hlayer0b : layerAt b 0 = l' := by rw [layerAt, hb]; rfl
  have hwidth : ∀ i, widthAt b i = widthAt a i := by
    intro i
    cases i with
    | zero => rw [widthAt, widthAt, hlayer0a, hlayer0b, hval.length_eq]
    | succ k => rw [widthAt, widthAt, hlayer_pos k]
  have hvalue : ∀ i j, valueAt b i j = valueAt a i j := by
    intro i j
    cases i with
    | zero =>
        rw [valueAt, valueAt, hlayer0a, hlayer0b]
        exact (forall2_val_getD hval j).symm
    | succ k => rw [valueAt, valueAt, hlayer_pos k]
  have hweight : ∀ k j idx, weightAt b (k + 1) j idx = weightAt a (k + 1) j idx := by
    intro k j idx
    rw [weightAt, weightAt, hlayer_pos k]
  intro d
  induction d with
  | zero =>
      simp only [deltaFromTop, hlen]
      cases hq : a.layers.length - 1 with
      | zero =>
          rw [hlayer0a, hlayer0b]
          exact outputDelta_congr target hval 0
      | succ k => rw [hlayer_pos k]
  | succ d ih =>
      simp only [deltaFromTop, hlen, hwidth, hvalue, hweight, ih]

theorem updLayer_congr {a b : NeuralNetwork} (target : List ℝ)
    (hR : AgreeExceptFirstParams a b) :
    ∀ (i : ℕ) (ly : Layer), 1 ≤ i → updLayer a target i ly = updLayer b target i ly := by
  have hdelta : ∀ i, delta a target i = delta b target i := by
    intro i
    rcases hR with ⟨hlr, l, l', rest, ha, hb, hval⟩
    have hlen : b.layers.length = a.layers.length := by rw [ha, hb]; simp
    rw [delta, delta, hlen, deltaFromTop_congr target ⟨hlr, l, l', rest, ha, hb, hval⟩]
  have hvalue : ∀ i j, valueAt a i j = valueAt b i j := by
    intro i j
    rcases hR with ⟨hlr, l, l', rest, ha, hb, hval⟩
    cases i with
    | zero =>
        rw [valueAt, valueAt, layerAt, layerAt, ha, hb]
        exact forall2_val_getD hval j
    | succ k =>
        rw [valueAt, valueAt, layerAt, layerAt, ha, hb,
          List.getD_cons_succ, List.getD_cons_succ]
  intro i ly hi
  have hne : ¬ i = 0 := by omega
  rw [updLayer, updLayer, if_neg hne, if_neg hne]
  simp only [hR.1, hdelta, hvalue]

theorem backPropagation_layers_cons (net : NeuralNetwork) (l0 : Layer)
    (rest : List Layer) (h : net.layers = l0 :: rest) (target : List ℝ) :
    (backPropagation net target).layers =
      l0 :: mapIdxFrom (updLayer net target) 1 rest := by
  rw [backPropagation, h]
  show updLayer net target 0 l0 :: _ = _
  rw [updLayer, if_pos rfl]

theorem backPropagation_agree {a b : NeuralNetwork} (target : List ℝ)
    (hR : AgreeExceptFirstParams a b) :
    AgreeExceptFirstParams (backPropagation a target) (backPropagation b target) := by
  have hlr := hR.1
  rcases hcopy : hR with ⟨_, l, l', rest, ha, hb, hval⟩
  refine ⟨by rw [backPropagation, backPropagation]; exact hlr,
    l, l', mapIdxFrom (updLayer a target) 1 rest,
    backPropagation_layers_cons a l rest ha target, ?_, hval⟩
  rw [backPropagation_layers_cons b l' rest hb target,
    mapIdxFrom_congr_ge (updLayer a target) (updLayer b target)
      (fun j x hj => updLayer_congr target hR j x hj) rest 1 (le_refl 1)]

theorem backPropagation_headD (net : NeuralNetwork) (target : List ℝ) :
    (backPropagation net target).layers.headD default = net.layers.headD default := by
  rcases h : net.layers with _ | ⟨l0, rest⟩
  · rw [backPropagation, h]
    rfl
  · rw [backPropagation_layers_cons net l0 rest h target, List.headD_cons, List.headD_cons]

/-! ### Preservation of the first layer's parameters -/

theorem params_mapIdxFrom_setInput (input : List ℝ) :
    ∀ (ns : List Neuron) (i : ℕ),
      (mapIdxFrom (fun i n => { n with value := input.getD i 0 }) i ns).map
          (fun n => (n.weights, n.bias)) =
        ns.map (fun n => (n.weights, n.bias))
  | [], _ => rfl
  | n :: t, i => by
      simp only [mapIdxFrom, List.map_cons, params_mapIdxFrom_setInput input t (i + 1)]

theorem firstLayerParams_forward (net : NeuralNetwork) (input : List ℝ) :
    firstLayerParams (forwardPropagation net input) = firstLayerParams net := by
  rcases h : net.layers with _ | ⟨l0, rest⟩
  · rw [forwardPropagation_nil net input h]
  · rw [firstLayerParams, firstLayerParams, forwardPropagation_cons net l0 rest h input]
    simp only [List.headD_cons, h]
    exact params_mapIdxFrom_setInput input l0.neurons 0

theorem firstLayerParams_back (net : NeuralNetwork) (target : List ℝ) :
    firstLayerParams (backPropagation net target) = firstLayerParams net := by
  rw [firstLayerParams, firstLayerParams, backPropagation_headD net target]

theorem firstLayerParams_trainStep (net : NeuralNetwork) (input target : List ℝ) :
    firstLayerParams (trainStep net input target) = firstLayerParams net := by
  rw [trainStep, firstLayerParams_back, firstLayerParams_forward]

theorem firstLayerParams_foldl_trainStep (inputs targets : List (List ℝ)) :
    ∀ (L : List ℕ) (net : NeuralNetwork),
      firstLayerParams (L.foldl
        (fun n i => trainStep n (inputs.getD i []) (targets.getD i [])) net) =
        firstLayerParams net
  | [], _ => rfl
  | i :: L, net => by
      rw [List.foldl_cons, firstLayerParams_foldl_trainStep inputs targets L _,
        firstLayerParams_trainStep]

theorem firstLayerParams_train (net : NeuralNetwork) (inputs targets : List (List ℝ)) :
    ∀ e : ℕ, firstLayerParams (train net inputs targets e) = firstLayerParams net
  | 0 => rfl
  | e + 1 => by
      rw [train, trainSamples, firstLayerParams_foldl_trainStep,
        firstLayerParams_train net inputs targets e]

/-! ### Non-influence of the first layer's parameters on training and outputs -/

theorem trainStep_agree {a b : NeuralNetwork} (input target : List ℝ)
    (hR : AgreeExceptFirstParams a b) :
    AgreeExceptFirstParams (trainStep a input target) (trainStep b input target) :=
  backPropagation_agree target (forward_agree input hR).1

theorem foldl_trainStep_agree (inputs targets : List (List ℝ)) :
    ∀ (L : List ℕ) {a b : NeuralNetwork}, AgreeExceptFirstParams a b →
      AgreeExceptFirstParams
        (L.foldl (fun n i => trainStep n (inputs.getD i []) (targets.getD i [])) a)
        (L.foldl (fun n i => trainStep n (inputs.getD i []) (targets.getD i [])) b)
  | [], _, _, h => h
  | _ :: L, _, _, h =>
      foldl_trainStep_agree inputs targets L (trainStep_agree _ _ h)

theorem train_agree {a b : NeuralNetwork} (inputs targets : List (List ℝ))
    (hR : AgreeExceptFirstParams a b) :
    ∀ e : ℕ, AgreeExceptFirstParams (train a inputs targets e) (train b inputs targets e)
  | 0 => hR
  | e + 1 =>
      foldl_trainStep_agree inputs targets _ (train_agree inputs targets hR e)

theorem predict_agree {a b : NeuralNetwork} (input : List ℝ)
    (hR : AgreeExceptFirstParams a b) : predict a input = predict b input := by
  rw [predict, predict, (forward_agree input hR).2]

theorem evalLoop_fst_agree (inputs targets : List (List ℝ)) :
    ∀ (L : List ℕ) (c : ℕ) {a b : NeuralNetwork}, AgreeExceptFirstParams a b →
      (L.foldl (fun acc i =>
        (if predictIdx (((forwardPropagation acc.2 (inputs.getD i [])).layers.getLastD
              default).getOutputs) = predictIdx (targets.getD i [])
          then acc.1 + 1 else acc.1,
         forwardPropagation acc.2 (inputs.getD i []))) (c, a)).1 =
      (L.foldl (fun acc i =>
        (if predictIdx (((forwardPropagation acc.2 (inputs.getD i [])).layers.getLastD
              default).getOutputs) = predictIdx (targets.getD i [])
          then acc.1 + 1 else acc.1,
         forwardPropagation acc.2 (inputs.getD i []))) (c, b)).1
  | [], _, _, _, _ => rfl
  | i :: L, c, a, b, h => by
      have houts := (forward_agree (inputs.getD i []) h).2
      rw [outputActivations, outputActivations] at houts
      simp only [List.foldl_cons, houts]
      exact evalLoop_fst_agree inputs targets L _ (forward_agree (inputs.getD i []) h).1

theorem evaluateAccuracy_agree {a b : NeuralNetwork} (inputs targets : List (List ℝ))
    (hR : AgreeExceptFirstParams a b) :
    evaluateAccuracy a inputs targets = evaluateAccuracy b inputs targets := by
  rw [evaluateAccuracy, evaluateAccuracy, evalAccuracyLoop, evalAccuracyLoop,
    evalLoop_fst_agree inputs targets (List.range inputs.length) 0 hR]

/-! ### Claim C10: the first constructed layer's parameters are frozen and inert -/

/-- Claim C10: after construction, the weights and bias of `layers[0]` are
never mutated by the forward pass, the backward pass, or training, and they
never influence any observable result: two networks that differ only in
`layers[0]`'s weights and biases produce identical output activations,
predictions and accuracies, and remain so related through training. -/
theorem first_layer_frame (a b : NeuralNetwork) (input target : List ℝ)
    (inputs targets : List (List ℝ)) (e : ℕ)
    (hR : AgreeExceptFirstParams a b) :
    firstLayerParams (forwardPropagation a input) = firstLayerParams a ∧
    firstLayerParams (backPropagation a target) = firstLayerParams a ∧
    firstLayerParams (train a inputs targets e) = firstLayerParams a ∧
    outputActivations a input = outputActivations b input ∧
    predict a input = predict b input ∧
    evaluateAccuracy a inputs targets = evaluateAccuracy b inputs targets ∧
    AgreeExceptFirstParams (train a inputs targets e) (train b inputs targets e) :=
  ⟨firstLayerParams_forward a input,
   firstLayerParams_back a target,
   firstLayerParams_train a inputs targets e,
   (forward_agree input hR).2,
   predict_agree input hR,
   evaluateAccuracy_agree inputs targets hR,
   train_agree inputs targets hR e⟩

theorem frameNets_agree : AgreeExceptFirstParams frameNetA frameNetB :=
  ⟨rfl, { neurons := [{ value := 1, weights := [10], bias := 10 }] },
    { neurons := [{ value := 1, weights := [20], bias := 20 }] },
    [{ neurons := [{ value := 2, weights := [3], bias := 4 }] }],
    rfl, rfl, List.Forall₂.cons rfl List.Forall₂.nil⟩

/-- Witness for `first_layer_frame` on `frameNetA`/`frameNetB`. -/
theorem first_layer_frame_witness :
    AgreeExceptFirstParams frameNetA frameNetB ∧
    (firstLayerParams (forwardPropagation frameNetA [1]) = firstLayerParams frameNetA ∧
     firstLayerParams (backPropagation frameNetA [0]) = firstLayerParams frameNetA ∧
     firstLayerParams (train frameNetA [[1]] [[0]] 2) = firstLayerParams frameNetA ∧
     outputActivations frameNetA [1] = outputActivations frameNetB [1] ∧
     predict frameNetA [1] = predict frameNetB [1] ∧
     evaluateAccuracy frameNetA [[1]] [[0]] = evaluateAccuracy frameNetB [[1]] [[0]] ∧
     AgreeExceptFirstParams (train frameNetA [[1]] [[0]] 2)
       (train frameNetB [[1]] [[0]] 2)) :=
  ⟨frameNets_agree,
   first_layer_frame frameNetA frameNetB [1] [0] [[1]] [[0]] 2 frameNets_agree⟩

/-! ### Claim C9: training is deterministic in the configuration -/

theorem neuron_update_value_eq {n n' : Neuron} (h : NeuronParamsEq n n') (v : ℝ) :
    ({ n with value := v } : Neuron) = { n' with value := v } := by
  rw [show ({ n with value := v } : Neuron) = ⟨v, n.weights, n.bias⟩ from rfl,
    show ({ n' with value := v } : Neuron) = ⟨v, n'.weights, n'.bias⟩ from rfl,
    h.1, h.2]

theorem neuron_map_params_eq (g : List ℝ → ℝ → ℝ) {n n' : Neuron}
    (h : NeuronParamsEq n n') :
    ({ n with value := g n.weights n.bias } : Neuron) =
      { n' with value := g n'.weights n'.bias } := by
  rw [show ({ n with value := g n.weights n.bias } : Neuron) =
      ⟨g n.weights n.bias, n.weights, n.bias⟩ from rfl,
    show ({ n' with value := g n'.weights n'.bias } : Neuron) =
      ⟨g n'.weights n'.bias, n'.weights, n'.bias⟩ from rfl,
    h.1, h.2]

theorem setInput_paramsEq (input : List ℝ) {ns ns' : List Neuron}
    (h : List.Forall₂ NeuronParamsEq ns ns') :
    ∀ i, mapIdxFrom (fun i n => { n with value := input.getD i 0 }) i ns =
      mapIdxFrom (fun i n => { n with value := input.getD i 0 }) i ns' := by
  induction h with
  | nil => intro i; rfl
  | cons h1 h2 ih =>
      intro i
      simp only [mapIdxFrom, neuron_update_value_eq h1 (input.getD i 0), ih (i + 1)]

theorem map_eq_of_forall2 {α β : Type} {R : α → α → Prop} (f : α → β)
    {l l' : List α} (h : List.Forall₂ R l l')
    (hf : ∀ x y, R x y → f x = f y) : l.map f = l'.map f := by
  induction h with
  | nil => rfl
  | cons h1 h2 ih => simp only [List.map_cons, hf _ _ h1, ih]

theorem rawLayer_paramsEq (p : Layer) {l l' : Layer}
    (h : List.Forall₂ NeuronParamsEq l.neurons l'.neurons) :
    rawLayer p l = rawLayer p l' := by
  rw [rawLayer, rawLayer]
  exact congrArg Layer.mk (map_eq_of_forall2 _ h
    (fun n n' hn => neuron_map_params_eq (fun ws bs => weightedSum p ws + bs) hn))

theorem reluLayer_paramsEq (p : Layer) {l l' : Layer}
    (h : List.Forall₂ NeuronParamsEq l.neurons l'.neurons) :
    reluLayer p l = reluLayer p l' := by
  rw [reluLayer, reluLayer]
  exact congrArg Layer.mk (map_eq_of_forall2 _ h
    (fun n n' hn => neuron_map_params_eq (fun ws bs => relu (weightedSum p ws + bs)) hn))

theorem forwardFrom_paramsEq :
    ∀ (prev : Layer) (ls ls' : List Layer),
      List.Forall₂ (fun l l' => List.Forall₂ NeuronParamsEq l.neurons l'.neurons) ls ls' →
      forwardFrom prev ls = forwardFrom prev ls'
  | _, [], [], _ => rfl
  | _, [], _ :: _, h => by cases h
  | _, _ :: _, [], h => by cases h
  | prev, [l], [l'], h => by
      have h1 := (List.forall₂_cons.mp h).1
      show [softmaxLayer (rawLayer prev l)] = [softmaxLayer (rawLayer prev l')]
      rw [rawLayer_paramsEq prev h1]
  | _, [_], _ :: _ :: _, h => by
      have h2 := (List.forall₂_cons.mp h).2
      cases h2
  | _, _ :: _ :: _, [_], h => by
      have h2 := (List.forall₂_cons.mp h).2
      cases h2
  | prev, l :: l2 :: rest, l' :: l2' :: rest', h => by
      have h1 := (List.forall₂_cons.mp h).1
      have h2 := (List.forall₂_cons.mp h).2
      show reluLayer prev l :: forwardFrom (reluLayer prev l) (l2 :: rest) =
        reluLayer prev l' :: forwardFrom (reluLayer prev l') (l2' :: rest')
      rw [reluLayer_paramsEq prev h1,
        forwardFrom_paramsEq (reluLayer prev l') (l2 :: rest) (l2' :: rest') h2]

theorem forward_sameParams {a b : NeuralNetwork} (input : List ℝ)
    (h : SameParams a b) :
    forwardPropagation a input = forwardPropagation b input := by
  rcases h with ⟨hlr, hF⟩
  rcases ha : a.layers with _ | ⟨l, rest⟩
  · rcases hb : b.layers with _ | ⟨l', rest'⟩
    · rw [forwardPropagation_nil a input ha, forwardPropagation_nil b input hb]
      cases a with
      | mk la lra =>
          cases b with
          | mk lb lrb =>
              simp only at ha hb hlr
              rw [ha, hb, hlr]
    · rw [ha, hb] at hF
      cases hF
  · rcases hb : b.layers with _ | ⟨l', rest'⟩
    · rw [ha, hb] at hF
      cases hF
    · rw [ha, hb] at hF
      have h1 := (List.forall₂_cons.mp hF).1
      have h2 := (List.forall₂_cons.mp hF).2
      rw [forwardPropagation_cons a l rest ha input,
        forwardPropagation_cons b l' rest' hb input]
      have hsi : setInput l input = setInput l' input :=
        congrArg Layer.mk (setInput_paramsEq input h1 0)
      rw [hsi, forwardFrom_paramsEq (setInput l' input) rest rest' h2, hlr]

theorem sameParams_refl (net : NeuralNetwork) : SameParams net net :=
  ⟨rfl, List.forall₂_same.mpr (fun l _ =>
    List.forall₂_same.mpr (fun n _ => ⟨rfl, rfl⟩))⟩

theorem trainStep_sameParams {a b : NeuralNetwork} (input target : List ℝ)
    (h : SameParams a b) : trainStep a input target = trainStep b input target := by
  rw [trainStep, trainStep, forward_sameParams input h]

theorem foldl_trainStep_sameParams (inputs targets : List (List ℝ)) :
    ∀ (L : List ℕ) {a b : NeuralNetwork}, SameParams a b →
      SameParams
        (L.foldl (fun n i => trainStep n (inputs.getD i []) (targets.getD i [])) a)
        (L.foldl (fun n i => trainStep n (inputs.getD i []) (targets.getD i [])) b)
  | [], _, _, h => h
  | i :: L, a, b, h => by
      rw [List.foldl_cons, List.foldl_cons,
        trainStep_sameParams (inputs.getD i []) (targets.getD i []) h]
      exact foldl_trainStep_sameParams inputs targets L (sameParams_refl _)

theorem train_sameParams_aux {a b : NeuralNetwork} (inputs targets : List (List ℝ))
    (h : SameParams a b) :
    ∀ e : ℕ, SameParams (train a inputs targets e) (train b inputs targets e)
  | 0 => h
  | e + 1 => by
      rw [train, train, trainSamples, trainSamples]
      exact foldl_trainStep_sameParams inputs targets _
        (train_sameParams_aux inputs targets h e)

/-- Claim C9: training is deterministic.  Initialization randomness is
modelled by the parameters handed to `construct`; with it fixed, two
identically configured networks (same weights, biases and learning rate —
transient activation values free) finish training with identical weights and
biases. -/
theorem train_deterministic (net1 net2 : NeuralNetwork)
    (inputs targets : List (List ℝ)) (epochs : ℕ) (h : SameParams net1 net2) :
    SameParams (train net1 inputs targets epochs) (train net2 inputs targets epochs) :=
  train_sameParams_aux inputs targets h epochs

theorem paramNets_same : SameParams paramNetA paramNetB :=
  ⟨rfl, List.Forall₂.cons (List.Forall₂.cons ⟨rfl, rfl⟩ List.Forall₂.nil)
    List.Forall₂.nil⟩

/-- Witness for `train_deterministic` on `paramNetA`/`paramNetB`. -/
theorem train_deterministic_witness :
    SameParams paramNetA paramNetB ∧
    SameParams (train paramNetA [[1]] [[0]] 2) (train paramNetB [[1]] [[0]] 2) :=
  ⟨paramNets_same, train_deterministic paramNetA paramNetB [[1]] [[0]] 2 paramNets_same⟩

/-! ### Per-index characterization of the forward pass (claim C1) -/

theorem forwardFrom_getD (dl : Layer) :
    ∀ (prev : Layer) (ls : List Layer), ∀ n < ls.length,
      (forwardFrom prev ls).getD n dl =
        if n + 1 = ls.length then
          softmaxLayer (rawLayer
            (if n = 0 then prev else (forwardFrom prev ls).getD (n - 1) dl)
            (ls.getD n dl))
        else
          reluLayer
            (if n = 0 then prev else (forwardFrom prev ls).getD (n - 1) dl)
            (ls.getD n dl)
  | _, [], n, hn => by simp at hn
  | prev, [l], 0, _ => by simp [forwardFrom]
  | _, [l], n + 1, hn => by simp at hn
  | prev, l :: l2 :: rest, 0, _ => by
      have hne : ¬ (0 + 1 = (l :: l2 :: rest).length) := by simp
      rw [if_neg hne, if_pos rfl]
      rfl
  | prev, l :: l2 :: rest, m + 1, hn => by
      have hm : m < (l2 :: rest).length := by simpa using hn
      have ihm := forwardFrom_getD dl (reluLayer prev l) (l2 :: rest) m hm
      have hcons : forwardFrom prev (l :: l2 :: rest) =
          reluLayer prev l :: forwardFrom (reluLayer prev l) (l2 :: rest) := rfl
      have hgd : (forwardFrom prev (l :: l2 :: rest)).getD (m + 1) dl =
          (forwardFrom (reluLayer prev l) (l2 :: rest)).getD m dl := by
        rw [hcons, List.getD_cons_succ]
      have hcond : (m + 1 + 1 = (l :: l2 :: rest).length) ↔
          (m + 1 = (l2 :: rest).length) := by simp
      have hP : (if m + 1 = 0 then prev
            else (forwardFrom prev (l :: l2 :: rest)).getD (m + 1 - 1) dl) =
          (if m = 0 then reluLayer prev l
            else (forwardFrom (reluLayer prev l) (l2 :: rest)).getD (m - 1) dl) := by
        rw [if_neg (Nat.succ_ne_zero m)]
        cases m with
        | zero => rw [if_pos rfl, hcons]; rfl
        | succ q =>
            rw [if_neg (Nat.succ_ne_zero q), hcons]
            show (reluLayer prev l :: forwardFrom (reluLayer prev l)
              (l2 :: rest)).getD (q + 1) dl = _
            rw [List.getD_cons_succ, Nat.add_sub_cancel]
      have hget : (l :: l2 :: rest).getD (m + 1) dl = (l2 :: rest).getD m dl :=
        List.getD_cons_succ
      rw [hgd, ihm, hget, hP]
      by_cases hlast : m + 1 = (l2 :: rest).length
      · rw [if_pos hlast, if_pos (hcond.mpr hlast)]
      · rw [if_neg hlast, if_neg (fun hc => hlast (hcond.mp hc))]

theorem widthAt_forward (net : NeuralNetwork) (input : List ℝ) :
    ∀ l, widthAt (forwardPropagation net input) l = widthAt net l := by
  intro l
  rcases hnet : net.layers with _ | ⟨l0, rest⟩
  · rw [forwardPropagation_nil net input hnet]
  · rw [widthAt, widthAt, layerAt, layerAt,
      forwardPropagation_cons net l0 rest hnet input]
    simp only
    rw [hnet]
    cases l with
    | zero =>
        rw [List.getD_cons_zero, List.getD_cons_zero]
        exact neurons_length_setInput l0 input
    | succ m =>
        rw [List.getD_cons_succ, List.getD_cons_succ]
        by_cases hm : m < rest.length
        · rw [forwardFrom_getD default (setInput l0 input) rest m hm]
          by_cases hlast : m + 1 = rest.length
          · rw [if_pos hlast, neurons_length_softmaxLayer, neurons_length_rawLayer]
          · rw [if_neg hlast, neurons_length_reluLayer]
        · rw [List.getD_eq_default _ _ (by rw [forwardFrom_length]; omega),
            List.getD_eq_default _ _ (by omega)]

theorem layerAt_forward_zero (net : NeuralNetwork) (l0 : Layer) (rest : List Layer)
    (hnet : net.layers = l0 :: rest) (input : List ℝ) :
    layerAt (forwardPropagation net input) 0 = setInput l0 input := by
  rw [layerAt, forwardPropagation_cons net l0 rest hnet input]
  rfl

theorem layerAt_forward_succ (net : NeuralNetwork) (l0 : Layer) (rest : List Layer)
    (hnet : net.layers = l0 :: rest) (input : List ℝ) (m : ℕ) :
    layerAt (forwardPropagation net input) (m + 1) =
      (forwardFrom (setInput l0 input) rest).getD m default := by
  rw [layerAt, forwardPropagation_cons net l0 rest hnet input]
  exact List.getD_cons_succ

theorem map_eq_range_map {β : Type} (f : Neuron → β) (dβ : β) :
    ∀ ns : List Neuron, ns.map f =
      (List.range ns.length).map (fun j => f (ns.getD j default)) := by
  intro ns
  refine ext_getD dβ _ _ (by simp) ?_
  intro i hi
  rw [List.length_map] at hi
  rw [getD_map' f dβ default ns i hi, getD_map_range _ dβ ns.length i hi]

theorem getOutputs_rawLayer (P L : Layer) :
    (rawLayer P L).getOutputs =
      L.neurons.map (fun n => weightedSum P n.weights + n.bias) := by
  rw [rawLayer, Layer.getOutputs]
  exact List.map_map _ _ _

/-- Amended claim C1 (forward propagation as the code actually computes it):
the input vector is written into the activation values of the FIRST
constructed layer (`layers[0]`), whose weights and bias do not participate;
every further layer `l ≥ 1` computes `raw[j] = Σ_k activation_{l-1}[k] ·
weight_j[k] + bias_j` over the previous layer's updated activations, applies
ReLU when it is not the last layer, and the last layer (when at least two
layers exist) applies softmax to its raw vector. -/
theorem forward_spec (net : NeuralNetwork) (input : List ℝ)
    (hM : 1 ≤ net.layers.length) :
    (∀ i < widthAt net 0,
      valueAt (forwardPropagation net input) 0 i = input.getD i 0) ∧
    (∀ l, 1 ≤ l → l + 1 < net.layers.length → ∀ j < widthAt net l,
      valueAt (forwardPropagation net input) l j =
        relu (((List.range (widthAt net (l - 1))).map
            (fun k => valueAt (forwardPropagation net input) (l - 1) k *
              weightAt net l j k)).sum + biasAt net l j)) ∧
    (2 ≤ net.layers.length → ∀ j < widthAt net (net.layers.length - 1),
      valueAt (forwardPropagation net input) (net.layers.length - 1) j =
        (softmax ((List.range (widthAt net (net.layers.length - 1))).map
          (fun j2 => ((List.range (widthAt net (net.layers.length - 2))).map
              (fun k => valueAt (forwardPropagation net input)
                  (net.layers.length - 2) k *
                weightAt net (net.layers.length - 1) j2 k)).sum +
            biasAt net (net.layers.length - 1) j2))).getD j 0) := by
  rcases hnet : net.layers with _ | ⟨l0, rest⟩
  · rw [hnet] at hM; simp at hM
  · have hlen : net.layers.length = rest.length + 1 := by rw [hnet]; rfl
    have hlay0 : layerAt net 0 = l0 := by
      rw [layerAt, hnet, List.getD_cons_zero]
    have hlaysucc : ∀ m, layerAt net (m + 1) = rest.getD m default := by
      intro m
      rw [layerAt, hnet, List.getD_cons_succ]
    refine ⟨?_, ?_, ?_⟩
    · intro i hi
      rw [widthAt, hlay0] at hi
      rw [valueAt, layerAt_forward_zero net l0 rest hnet input, setInput]
      rw [getD_mapIdxFrom _ default default l0.neurons 0 i hi]
      simp
    · intro l hl1 hl2 j hj
      obtain ⟨m, rfl⟩ : ∃ m, l = m + 1 := ⟨l - 1, by omega⟩
      simp only [List.length_cons] at hl2
      have hm : m < rest.length := by omega
      have hnotlast : ¬ (m + 1 = rest.length) := by omega
      have hlayer : layerAt (forwardPropagation net input) (m + 1) =
          reluLayer (layerAt (forwardPropagation net input) m)
            (layerAt net (m + 1)) := by
        rw [layerAt_forward_succ net l0 rest hnet input m,
          forwardFrom_getD default (setInput l0 input) rest m hm,
          if_neg hnotlast, hlaysucc m]
        cases m with
        | zero => rw [if_pos rfl, layerAt_forward_zero net l0 rest hnet input]
        | succ q =>
            rw [if_neg (Nat.succ_ne_zero q), Nat.add_sub_cancel,
              layerAt_forward_succ net l0 rest hnet input q]
      have hj' : j < (layerAt net (m + 1)).neurons.length := hj
      rw [valueAt, hlayer, reluLayer]
      rw [getD_map' _ default default _ j hj']
      show relu (weightedSum (layerAt (forwardPropagation net input) m) _ + _) = _
      rw [weightedSum]
      have hw : (layerAt (forwardPropagation net input) m).neurons.length =
          widthAt net m := widthAt_forward net input m
      rw [hw, Nat.add_sub_cancel]
      rfl
    · intro h2 j hj
      simp only [List.length_cons] at h2
      have hrpos : 1 ≤ rest.length := by omega
      obtain ⟨m, hmr⟩ : ∃ m, rest.length = m + 1 := ⟨rest.length - 1, by omega⟩
      have hMm : (l0 :: rest).length - 1 = m + 1 := by
        simp only [List.length_cons]; omega
      have hMm2 : (l0 :: rest).length - 2 = m := by
        simp only [List.length_cons]; omega
      have hm : m < rest.length := by omega
      have hlast : m + 1 = rest.length := hmr.symm
      have hlayer : layerAt (forwardPropagation net input) (m + 1) =
          softmaxLayer (rawLayer (layerAt (forwardPropagation net input) m)
            (layerAt net (m + 1))) := by
        rw [layerAt_forward_succ net l0 rest hnet input m,
          forwardFrom_getD default (setInput l0 input) rest m hm,
          if_pos hlast, hlaysucc m]
        cases m with
        | zero => rw [if_pos rfl, layerAt_forward_zero net l0 rest hnet input]
        | succ q =>
            rw [if_neg (Nat.succ_ne_zero q), Nat.add_sub_cancel,
              layerAt_forward_succ net l0 rest hnet input q]
      rw [hMm] at hj ⊢
      rw [hMm2]
      have hj' : j < (layerAt net (m + 1)).neurons.length := hj
      rw [valueAt, hlayer, softmaxLayer]
      rw [getD_mapIdxFrom _ default default _ 0 j (by
        rw [neurons_length_rawLayer]; exact hj')]
      show (softmax (rawLayer _ _).getOutputs).getD (0 + j) 0 = _
      rw [Nat.zero_add, getOutputs_rawLayer,
        map_eq_range_map _ (0 : ℝ) (layerAt net (m + 1)).neurons]
      show (softmax ((List.range (widthAt net (m + 1))).map _)).getD j 0 = _
      have hfun : ((List.range (widthAt net (m + 1))).map
          (fun j2 => weightedSum (layerAt (forwardPropagation net input) m)
            ((layerAt net (m + 1)).neurons.getD j2 default).weights +
            ((layerAt net (m + 1)).neurons.getD j2 default).bias)) =
          ((List.range (widthAt net (m + 1))).map
          (fun j2 => ((List.range (widthAt net m)).map
              (fun k => valueAt (forwardPropagation net input) m k *
                weightAt net (m + 1) j2 k)).sum +
            biasAt net (m + 1) j2)) := by
        refine List.map_congr_left ?_
        intro j2 _
        rw [weightedSum]
        have hw : (layerAt (forwardPropagation net input) m).neurons.length =
            widthAt net m := widthAt_forward net input m
        rw [hw]
        rfl
      rw [hfun]

theorem c1NetA_layers :
    c1NetA.layers = [{ neurons := [{ value := 0, weights := [2], bias := 0 }] },
      { neurons := [{ value := 0, weights := [1], bias := 0 },
                    { value := 0, weights := [0], bias := 0 }] }] := rfl

theorem c1NetB_layers :
    c1NetB.layers = [{ neurons := [{ value := 0, weights := [5], bias := 0 }] },
      { neurons := [{ value := 0, weights := [1], bias := 0 },
                    { value := 0, weights := [0], bias := 0 }] }] := rfl

theorem softmax_pair_fst (x y : ℝ) (h : y ≤ x) :
    (softmax [x, y]).getD 0 0 = 1 / (1 + Real.exp (y - x)) := by
  have hmax : maxElem [x, y] = x := by
    rw [maxElem]
    show max (max x x) y = x
    rw [max_self]
    exact max_eq_left h
  rw [softmax, hmax]
  simp only [List.map_cons, List.map_nil, List.sum_cons, List.sum_nil, sub_self,
    Real.exp_zero]
  rw [List.getD_cons_zero]
  ring_nf

theorem exp_fraction_ne : (1 : ℝ) / (1 + Real.exp (0 - 1)) ≠
    1 / (1 + Real.exp (0 - 2)) := by
  intro h
  have h1 : (0 : ℝ) < 1 + Real.exp (0 - 1) := by positivity
  have h2 : (0 : ℝ) < 1 + Real.exp (0 - 2) := by positivity
  rw [div_eq_div_iff h1.ne' h2.ne', one_mul, one_mul] at h
  have : Real.exp (0 - 2) = Real.exp (0 - 1) := by linarith
  have := Real.exp_injective this
  norm_num at this

theorem outputActivations_c1NetA :
    outputActivations c1NetA [1] = softmax [1, 0] := by
  rw [outputActivations,
    forwardPropagation_cons c1NetA
      { neurons := [{ value := 0, weights := [2], bias := 0 }] }
      [{ neurons := [{ value := 0, weights := [1], bias := 0 },
                     { value := 0, weights := [0], bias := 0 }] }]
      c1NetA_layers [1]]
  simp only [List.getLastD_cons, List.getLastD_nil, forwardFrom]
  rw [getOutputs_softmaxLayer, getOutputs_rawLayer]
  have hset : setInput { neurons := [{ value := 0, weights := [2], bias := 0 }] } [1] =
      { neurons := [{ value := 1, weights := [2], bias := 0 }] } := rfl
  rw [hset]
  have hws1 : weightedSum { neurons := [{ value := 1, weights := [2], bias := 0 }] }
      [1] = 1 := by
    rw [weightedSum]
    norm_num [List.range_succ]
  have hws0 : weightedSum { neurons := [{ value := 1, weights := [2], bias := 0 }] }
      [0] = 0 := by
    rw [weightedSum]
    norm_num [List.range_succ]
  simp only [List.map_cons, List.map_nil, hws1, hws0, add_zero]

theorem outputActivations_c1NetB :
    outputActivations c1NetB [1] = softmax [1, 0] := by
  rw [outputActivations,
    forwardPropagation_cons c1NetB
      { neurons := [{ value := 0, weights := [5], bias := 0 }] }
      [{ neurons := [{ value := 0, weights := [1], bias := 0 },
                     { value := 0, weights := [0], bias := 0 }] }]
      c1NetB_layers [1]]
  simp only [List.getLastD_cons, List.getLastD_nil, forwardFrom]
  rw [getOutputs_softmaxLayer, getOutputs_rawLayer]
  have hset : setInput { neurons := [{ value := 0, weights := [5], bias := 0 }] } [1] =
      { neurons := [{ value := 1, weights := [5], bias := 0 }] } := rfl
  rw [hset]
  have hws1 : weightedSum { neurons := [{ value := 1, weights := [5], bias := 0 }] }
      [1] = 1 := by
    rw [weightedSum]
    norm_num [List.range_succ]
  have hws0 : weightedSum { neurons := [{ value := 1, weights := [5], bias := 0 }] }
      [0] = 0 := by
    rw [weightedSum]
    norm_num [List.range_succ]
  simp only [List.map_cons, List.map_nil, hws1, hws0, add_zero]

theorem claimForward_c1NetA :
    claimForward [1] c1NetA.layers = softmax [2, 0] := by
  rw [c1NetA_layers]
  simp only [claimForward]
  have hdot2 : specDot [1] [2] = 2 := by
    rw [specDot]
    norm_num [List.range_succ]
  have hrelu : relu (({ value := 0, weights := [2], bias := 0 } : Neuron).bias +
      specDot [1] ({ value := 0, weights := [2], bias := 0 } : Neuron).weights) = 2 := by
    show relu (0 + specDot [1] [2]) = 2
    rw [hdot2, relu]
    norm_num
  simp only [List.map_cons, List.map_nil, hrelu]
  have hd1 : specDot [2] [1] = 2 := by
    rw [specDot]
    norm_num [List.range_succ]
  have hd0 : specDot [2] [0] = 0 := by
    rw [specDot]
    norm_num [List.range_succ]
  simp only [hd1, hd0, zero_add]

/-- Claim C1 fails on the code: the networks `c1NetA` and `c1NetB` differ
exactly in the first constructed layer's weights (2 versus 5), yet the
forward pass on input `[1]` produces identical outputs — that layer's weights
and bias do not participate — and the output differs from the value computed
by the spec's forward recursion (`claimForward`), which does use them. -/
theorem forward_first_layer_counterexample :
    firstLayerParams c1NetA ≠ firstLayerParams c1NetB ∧
    outputActivations c1NetA [1] = outputActivations c1NetB [1] ∧
    outputActivations c1NetA [1] ≠ claimForward [1] c1NetA.layers := by
  refine ⟨?_, ?_, ?_⟩
  · intro h
    rw [firstLayerParams, firstLayerParams, c1NetA_layers, c1NetB_layers] at h
    simp only [List.headD_cons, List.map_cons, List.map_nil, List.cons.injEq,
      Prod.mk.injEq] at h
    have h2 := h.1.1
    simp only [List.cons.injEq] at h2
    norm_num at h2
  · rw [outputActivations_c1NetA, outputActivations_c1NetB]
  · rw [outputActivations_c1NetA, claimForward_c1NetA]
    intro h
    have h0 := congrArg (fun xs => xs.getD 0 0) h
    simp only at h0
    rw [softmax_pair_fst 1 0 (by norm_num), softmax_pair_fst 2 0 (by norm_num)] at h0
    exact exp_fraction_ne h0

/-- Witness for `forward_spec` on `c1NetA` with input `[1]`. -/
theorem forward_spec_witness :
    1 ≤ c1NetA.layers.length ∧
    ((∀ i < widthAt c1NetA 0,
      valueAt (forwardPropagation c1NetA [1]) 0 i = ([(1 : ℝ)]).getD i 0) ∧
    (∀ l, 1 ≤ l → l + 1 < c1NetA.layers.length → ∀ j < widthAt c1NetA l,
      valueAt (forwardPropagation c1NetA [1]) l j =
        relu (((List.range (widthAt c1NetA (l - 1))).map
            (fun k => valueAt (forwardPropagation c1NetA [1]) (l - 1) k *
              weightAt c1NetA l j k)).sum + biasAt c1NetA l j)) ∧
    (2 ≤ c1NetA.layers.length → ∀ j < widthAt c1NetA (c1NetA.layers.length - 1),
      valueAt (forwardPropagation c1NetA [1]) (c1NetA.layers.length - 1) j =
        (softmax ((List.range (widthAt c1NetA (c1NetA.layers.length - 1))).map
          (fun j2 => ((List.range (widthAt c1NetA (c1NetA.layers.length - 2))).map
              (fun k => valueAt (forwardPropagation c1NetA [1])
                  (c1NetA.layers.length - 2) k *
                weightAt c1NetA (c1NetA.layers.length - 1) j2 k)).sum +
            biasAt c1NetA (c1NetA.layers.length - 1) j2))).getD j 0)) :=
  ⟨by rw [c1NetA_layers]; norm_num, forward_spec c1NetA [1] (by rw [c1NetA_layers]; norm_num)⟩

/-! ### Claim C3: the backward pass -/

theorem layerAt_backPropagation (net : NeuralNetwork) (target : List ℝ) (l : ℕ)
    (hl : l < net.layers.length) :
    layerAt (backPropagation net target) l = updLayer net target l (layerAt net l) := by
  rw [layerAt, backPropagation]
  show (mapIdxFrom (updLayer net target) 0 net.layers).getD l default = _
  rw [getD_mapIdxFrom (updLayer net target) default default net.layers 0 l hl,
    Nat.zero_add, layerAt]

/-- Amended claim C3: `backPropagation` (1) sets the output deltas to
`activation − target`; (2) computes every hidden delta from the next layer's
deltas of the same call, all as functions `D` of the pre-call state alone, so
every delta is fixed before any weight or bias changes; and (3) updates the
weights and biases of every layer EXCEPT the first constructed one
(`layers[0]`, the holder of the layer-0 activations, which the update loop
`for i = layers.size()-1; i > 0; --i` never reaches), using the activations
cached by the preceding forward pass. -/
theorem backPropagation_spec (net : NeuralNetwork) (target : List ℝ)
    (hM : 1 ≤ net.layers.length) :
    ∃ D : ℕ → List ℝ,
      (∀ i < widthAt net (net.layers.length - 1),
        (D (net.layers.length - 1)).getD i 0 =
          valueAt net (net.layers.length - 1) i - target.getD i 0) ∧
      (∀ l, l + 1 < net.layers.length → ∀ j < widthAt net l,
        (D l).getD j 0 =
          reluDerivative (valueAt net l j) *
            ((List.range (widthAt net (l + 1))).map
              (fun k => weightAt net (l + 1) k j * (D (l + 1)).getD k 0)).sum) ∧
      (∀ l, 1 ≤ l → l < net.layers.length → ∀ j < widthAt net l,
        biasAt (backPropagation net target) l j =
          biasAt net l j - net.learningRate * (D l).getD j 0 ∧
        ∀ k < ((layerAt net l).neurons.getD j default).weights.length,
          weightAt (backPropagation net target) l j k =
            weightAt net l j k -
              net.learningRate * (D l).getD j 0 * valueAt net (l - 1) k) := by
  refine ⟨delta net target, ?_, ?_, ?_⟩
  · intro i hi
    rw [delta, Nat.sub_self, deltaFromTop,
      getD_mapIdxFrom _ 0 default _ 0 i hi, Nat.zero_add]
    rfl
  · intro l hl j hj
    have hd : net.layers.length - 1 - l = (net.layers.length - 1 - (l + 1)) + 1 := by
      omega
    have hidx : net.layers.length - 1 - (net.layers.length - 1 - (l + 1) + 1) = l := by
      omega
    rw [delta, hd, deltaFromTop]
    simp only [hidx]
    rw [getD_map_range _ 0 _ j hj, mul_comm]
    rfl
  · intro l hl1 hlM j hj
    have hlay := layerAt_backPropagation net target l (by omega)
    rw [updLayer, if_neg (by omega : ¬ l = 0)] at hlay
    constructor
    · rw [biasAt, hlay]
      show ((mapIdxFrom (fun j (n : Neuron) =>
          { n with
            weights := mapIdxFrom (fun k wv =>
                wv - net.learningRate * (delta net target l).getD j 0 *
                  valueAt net (l - 1) k) 0 n.weights
            bias := n.bias - net.learningRate * (delta net target l).getD j 0 })
          0 (layerAt net l).neurons).getD j default).bias =
        biasAt net l j - net.learningRate * (delta net target l).getD j 0
      rw [getD_mapIdxFrom _ default default _ 0 j hj, Nat.zero_add]
      rfl
    · intro k hk
      rw [weightAt, hlay]
      show ((mapIdxFrom (fun j (n : Neuron) =>
          { n with
            weights := mapIdxFrom (fun k wv =>
                wv - net.learningRate * (delta net target l).getD j 0 *
                  valueAt net (l - 1) k) 0 n.weights
            bias := n.bias - net.learningRate * (delta net target l).getD j 0 })
          0 (layerAt net l).neurons).getD j default).weights.getD k 0 =
        weightAt net l j k -
          net.learningRate * (delta net target l).getD j 0 * valueAt net (l - 1) k
      rw [getD_mapIdxFrom _ default default _ 0 j hj, Nat.zero_add]
      show (mapIdxFrom (fun k wv =>
          wv - net.learningRate * (delta net target l).getD j 0 *
            valueAt net (l - 1) k) 0
          ((layerAt net l).neurons.getD j default).weights).getD k 0 =
        weightAt net l j k -
          net.learningRate * (delta net target l).getD j 0 * valueAt net (l - 1) k
      rw [getD_mapIdxFrom _ 0 0 _ 0 k hk, Nat.zero_add]
      rfl

/-- Witness for `backPropagation_spec` on `bpNet` with target `[0]`. -/
theorem backPropagation_spec_witness :
    1 ≤ bpNet.layers.length ∧
    (∃ D : ℕ → List ℝ,
      (∀ i < widthAt bpNet (bpNet.layers.length - 1),
        (D (bpNet.layers.length - 1)).getD i 0 =
          valueAt bpNet (bpNet.layers.length - 1) i - ([(0 : ℝ)]).getD i 0) ∧
      (∀ l, l + 1 < bpNet.layers.length → ∀ j < widthAt bpNet l,
        (D l).getD j 0 =
          reluDerivative (valueAt bpNet l j) *
            ((List.range (widthAt bpNet (l + 1))).map
              (fun k => weightAt bpNet (l + 1) k j * (D (l + 1)).getD k 0)).sum) ∧
      (∀ l, 1 ≤ l → l < bpNet.layers.length → ∀ j < widthAt bpNet l,
        biasAt (backPropagation bpNet [0]) l j =
          biasAt bpNet l j - bpNet.learningRate * (D l).getD j 0 ∧
        ∀ k < ((layerAt bpNet l).neurons.getD j default).weights.length,
          weightAt (backPropagation bpNet [0]) l j k =
            weightAt bpNet l j k -
              bpNet.learningRate * (D l).getD j 0 * valueAt bpNet (l - 1) k)) :=
  ⟨by simp [bpNet], backPropagation_spec bpNet [0] (by simp [bpNet])⟩

/-- Claim C3 as stated fails on the code: on `bpNet` (with cached activations
1 and 2, target `[0]`), the claim's update for real layer `l = 1` (the first
constructed layer) prescribes `bias -= learningRate · delta_1` with
`learningRate · delta_1 = 6 ≠ 0` (so the bias should become 4), but the
update loop stops before `layers[0]` and its bias stays 10. -/
theorem backprop_skips_first_layer :
    biasAt (backPropagation bpNet [0]) 0 0 = 10 ∧
    biasAt bpNet 0 0 = 10 ∧
    bpNet.learningRate * (reluDerivative (valueAt bpNet 0 0) *
      (weightAt bpNet 1 0 0 * (valueAt bpNet 1 0 - ([(0 : ℝ)]).getD 0 0))) = 6 ∧
    (10 : ℝ) - 6 ≠ 10 := by
  refine ⟨?_, rfl, ?_, by norm_num⟩
  · rw [biasAt, layerAt_backPropagation bpNet [0] 0 (by simp [bpNet]),
      updLayer, if_pos rfl]
    rfl
  · have h1 : valueAt bpNet 0 0 = 1 := rfl
    have h2 : valueAt bpNet 1 0 = 2 := rfl
    have h3 : weightAt bpNet 1 0 0 = 3 := rfl
    have h4 : bpNet.learningRate = 1 := rfl
    rw [h1, h2, h3, h4, reluDerivative, if_pos (by norm_num)]
    norm_num

/-! ### Claim C2: the forward pass reads the input out of bounds -/

/-- Claim C2 fails on the code: for the repository's own configuration the
declared input width is `layerSizes[0] = 4`, but `forwardPropagation` reads
`inputValues[i]` for every `i < layers[0].neurons.size() = layerSizes[1] = 8`,
so a length-4 input vector is read out of bounds (indices 4..7 — undefined
behaviour in the C++). -/
theorem forward_input_read_out_of_bounds :
    forwardInputReadBound mainNet = 8 ∧
    ([(0 : ℝ), 0, 0, 0] : List ℝ).length = 4 ∧
    ¬ forwardInputInBounds mainNet [0, 0, 0, 0] := by
  have hb : forwardInputReadBound mainNet = 8 := rfl
  refine ⟨hb, rfl, ?_⟩
  rw [forwardInputInBounds, hb]
  norm_num

/-! ### Claim C5: `evaluateAccuracy` on zero samples divides zero by zero -/

/-- Claim C5 fails on the code: with zero samples the loop counts 0 correct
predictions and the function returns
`static_cast<double>(0) / 0` — a division of zero by zero (`inputs.size() = 0`),
which for IEEE doubles is NaN, silently non-numeric, neither `0.0` nor an
explicit error.  (Lean's total real division makes the quotient `0`; the
first two conjuncts record that the code forms the quotient `0 / 0`.) -/
theorem evaluateAccuracy_empty_division :
    (evalAccuracyLoop evalNet [] []).1 = 0 ∧
    ((([] : List (List ℝ)).length : ℝ) = 0) ∧
    evaluateAccuracy evalNet [] [] = (0 : ℝ) / 0 := by
  refine ⟨rfl, by norm_num, ?_⟩
  rw [evaluateAccuracy]
  norm_num

/-! ### Claim C6: no precondition is validated anywhere -/

/-- Claim C6 fails on the code: no precondition of the error taxonomy is
checked.  A dimension-mismatched input (length 2 against declared width 1) is
silently truncated — the forward pass gives the same result as for the
truncated input — and `construct` accepts an `InvalidConfiguration`
(single-entry layer-size list, negative learning rate) without any failure,
producing a degenerate zero-layer network. -/
theorem no_precondition_checks :
    forwardPropagation cNet [3, 99] = forwardPropagation cNet [3] ∧
    (construct [2] (fun _ _ _ => 1) (fun _ _ => 0) (-1)).layers = [] ∧
    (construct [2] (fun _ _ _ => 1) (fun _ _ => 0) (-1)).learningRate = -1 := by
  refine ⟨?_, rfl, rfl⟩
  have hc : cNet.layers =
      [{ neurons := [{ value := 0, weights := [1], bias := 0 }] },
       { neurons := [{ value := 0, weights := [1], bias := 0 },
                     { value := 0, weights := [1], bias := 0 }] }] := rfl
  rw [forwardPropagation_cons cNet
      { neurons := [{ value := 0, weights := [1], bias := 0 }] }
      [{ neurons := [{ value := 0, weights := [1], bias := 0 },
                     { value := 0, weights := [1], bias := 0 }] }] hc [3, 99],
    forwardPropagation_cons cNet
      { neurons := [{ value := 0, weights := [1], bias := 0 }] }
      [{ neurons := [{ value := 0, weights := [1], bias := 0 },
                     { value := 0, weights := [1], bias := 0 }] }] hc [3]]
  have hset : setInput { neurons := [{ value := 0, weights := [1], bias := 0 }] }
      [3, 99] = setInput { neurons := [{ value := 0, weights := [1], bias := 0 }] }
      [3] := rfl
  rw [hset]

end NNV
